import Mathlib

/-!
# Verification of the customer analytics pipeline

Shallow embedding of `src/customer_behavior_class.py` (class
`CustomerIntelligence`): the RFM engine (`build_rfm`), the cohort retention
engine (`cohort_logic`), the CLV engine (`build_clv_table`), the Pareto
engine (`pareto_analysis`, `pareto_analysis_by_country`) and the segment
aggregator (`group_by_segment`).

Modelling conventions:
* A pandas DataFrame of cleaned transactions is a `List Row`; decimals are
  exact rationals `ℚ`; invoice timestamps are whole days `Int` (the source
  only uses `.max`, day differences and `+ 1 day`).
* The `YearMonth` period (`pandas.Period`, freq `M`) is a `YM` record with a
  year and a month; pandas orders periods by their absolute month ordinal,
  embedded as `YM.code = 12 * year + month`.
* `groupby` sorts its keys ascending (pandas default `sort=True`); string
  keys are ordered lexicographically by code point (`strLeR`).
* The in-place column assignments of `cohort_logic`
  (`self.df['CohortMonth'] = ...`, `self.df['CohortIndex'] = ...`) are
  embedded as `Option`-valued fields of `Row` that start out `none` on a
  cleaned table and that `cohortAssign` overwrites; each engine method is
  paired with its effect on `self.df` in the `CIState` wrappers.
* `pd.qcut(xs, 5, labels)` computes six quantile bin edges by linear
  interpolation at positions `k/5 * (n-1)` over the sorted values, raises
  (`ValueError`, modelled as `EngineError.insufficientData`, the spec's name
  for it) when the edges are not pairwise distinct, and otherwise puts a
  value `v` into the bin `(e_j, e_(j+1)]`, the minimum landing in bin 0.
* `Series.replace(segs, regex=True)` on the two-digit key applies the regex
  rules in order; since no replacement label contains a digit, its behaviour
  is first-match-wins over the original key, with the raw key passed through
  when nothing matches (`segmentLabel`).
* Calling `group_by_segment` while `self.rfm` is still `None` fails in the
  source (`AttributeError` on `None`); the failure is modelled as
  `EngineError.notReady`, the spec's name for it.
-/

/-- Floor of a rational, written so that it evaluates by kernel reduction
(`Int.floor` on `ℚ` is hidden behind the `FloorRing` structure). -/
def ratFloor (q : ℚ) : ℤ := q.num / (q.den : ℤ)

/-- Code-point comparison of char lists: lexicographic order, as Python
compares `str` values (used by `groupby(sort=True)` on object keys). -/
def strLeAux : List Char → List Char → Bool
  | [], _ => true
  | _ :: _, [] => false
  | a :: as, b :: bs =>
    if a.val < b.val then true else if b.val < a.val then false else strLeAux as bs

/-- Lexicographic-by-code-point order on strings. -/
def strLeR (a b : String) : Prop := strLeAux a.data b.data = true

instance : DecidableRel strLeR := fun a b =>
  inferInstanceAs (Decidable (strLeAux a.data b.data = true))

/-- A calendar month, the embedding of `pandas.Period` with monthly
frequency: the source reads `.dt.year` and `.dt.month` off the `YearMonth`
column. -/
structure YM where
  year : Int
  month : Int
deriving DecidableEq, Repr

/-- The absolute month ordinal by which pandas orders monthly periods. -/
def YM.code (a : YM) : Int := a.year * 12 + a.month

/-- `min` of two periods (pandas compares periods by ordinal). -/
def ymMin (a b : YM) : YM := if b.code < a.code then b else a

/-- One cleaned transaction row: the input contract produced by
`DataProcessor` (`InvoiceDate` parsed, `YearMonth` derived, `CancelledInvoice`
derived, `TotalRevenue = Quantity * UnitPrice`).  `cohortMonth` and
`cohortIndex` are the two columns `cohort_logic` later injects into the
shared table; a cleaned table has them `none`. -/
structure Row where
  customerID : String
  invoiceNo : String
  invoiceDate : Int
  ym : YM
  quantity : Int
  unitPrice : ℚ
  totalRevenue : ℚ
  cancelledInvoice : Bool
  country : String
  cohortMonth : Option YM := none
  cohortIndex : Option Int := none
deriving DecidableEq, Repr

/-- Errors of the analytical engines (the spec's taxonomy, §7). -/
inductive EngineError where
  | insufficientData
  | notReady
deriving DecidableEq, Repr

/-! ## groupby helpers -/

/-- The row subset of one customer (`df[df['CustomerID'] == c]`). -/
def rowsOf (df : List Row) (c : String) : List Row :=
  df.filter fun r => r.customerID == c

/-- The non-cancelled rows (`df[df['CancelledInvoice'] == False]`). -/
def ncRows (df : List Row) : List Row :=
  df.filter fun r => r.cancelledInvoice == false

/-- The distinct customer ids in groupby key order (ascending). -/
def customersOf (df : List Row) : List String :=
  ((df.map (·.customerID)).dedup).insertionSort strLeR

/-- The distinct customer ids among non-cancelled rows, groupby key order. -/
def customersNC (df : List Row) : List String :=
  (((ncRows df).map (·.customerID)).dedup).insertionSort strLeR

/-- `df['InvoiceDate'].max()` over a row subset (0 on an empty table, which
the source never reaches). -/
def maxDateOf (rows : List Row) : Int :=
  match rows.map (·.invoiceDate) with
  | [] => 0
  | d :: ds => ds.foldl max d

/-- Snapshot date: one day after the last invoice date of the whole table. -/
def snapshotDate (df : List Row) : Int := maxDateOf df + 1

/-- Recency: days between snapshot date and the customer's last invoice. -/
def recencyOf (df : List Row) (c : String) : Int :=
  snapshotDate df - maxDateOf (rowsOf df c)

/-- Monetary: sum of `TotalRevenue` over all of the customer's rows,
cancellations included. -/
def monetaryOf (df : List Row) (c : String) : ℚ :=
  ((rowsOf df c).map (·.totalRevenue)).sum

/-- Frequency: number of distinct invoice ids among non-cancelled rows. -/
def freqOf (df : List Row) (c : String) : ℕ :=
  (((ncRows df).filter fun r => r.customerID == c).map (·.invoiceNo)).dedup.length

/-! ## Quantile binning (`pd.qcut(xs, 5, labels)`) -/

/-- Value at fractional position `pos` of the ascending-sorted sample `s`,
by numpy's linear interpolation. -/
def interpAt (s : List ℚ) (pos : ℚ) : ℚ :=
  s.getD (ratFloor pos).toNat 0 +
    (pos - ((ratFloor pos).toNat : ℚ)) *
      (s.getD ((ratFloor pos).toNat + 1) (s.getD (ratFloor pos).toNat 0) -
        s.getD (ratFloor pos).toNat 0)

/-- The six bin edges: quantiles `0, 1/5, ..., 1`, i.e. interpolated
positions `k * (n-1) / 5` of the sorted sample. -/
def quantileEdges (s : List ℚ) : List ℚ :=
  (List.range 6).map fun k : ℕ => interpAt s ((k : ℚ) * ((s.length : ℚ) - 1) / 5)

/-- The bin of value `v` for edge list `e₀ < ... < e₅`: the number of
interior edges `e₁..e₄` strictly below `v`, so bin `j` is `(eⱼ, eⱼ₊₁]` and
the minimum lands in bin 0 (pandas `include_lowest`). -/
def binIndex (edges : List ℚ) (v : ℚ) : ℕ :=
  (List.range 4).countP fun k => decide (edges.getD (k + 1) 0 < v)

/-- `pd.qcut(xs, 5, labels=labels)`: raises when the quantile edges are not
pairwise distinct (`duplicates='raise'`), otherwise labels every value with
its bin's label. -/
def qcut (xs : List ℚ) (labels : List ℕ) : Except EngineError (List ℕ) :=
  if (quantileEdges (xs.insertionSort (· ≤ ·))).Nodup then
    .ok (xs.map fun v =>
      labels.getD (binIndex (quantileEdges (xs.insertionSort (· ≤ ·))) v) 0)
  else .error .insufficientData

/-- `Series.rank(method='first')`: rank by value, ties broken by position,
ranks `1..n`. -/
def rankFirst (xs : List ℚ) : List ℚ :=
  (List.range xs.length).map fun i =>
    (((List.range xs.length).countP fun j =>
        decide (xs.getD j 0 < xs.getD i 0 ∨ (xs.getD j 0 = xs.getD i 0 ∧ j < i))) + 1 : ℕ)

/-! ## Segment rules -/

/-- `'` as a string (for the `Can't lose` label). -/
def apos : String := String.singleton (Char.ofNat 39)

/-- `[lo-hi]` character-class test on a score digit. -/
def digitIn (lo hi d : ℕ) : Bool := lo ≤ d && d ≤ hi

/-- The ordered segment-mapping rule table of `build_rfm` (the `segs` dict):
each regex pattern over the two score digits, in source order. -/
def segRules : List ((ℕ → ℕ → Bool) × String) :=
  [ (fun r f => digitIn 1 2 r && digitIn 1 2 f, "Lost"),
    (fun r f => digitIn 1 2 r && digitIn 3 4 f, "At risk"),
    (fun r f => digitIn 1 2 r && f == 5, "Can" ++ apos ++ "t lose"),
    (fun r f => r == 3 && digitIn 1 2 f, "About to sleep"),
    (fun r f => r == 3 && f == 3, "Need attention"),
    (fun r f => r == 4 && f == 1, "Promising"),
    (fun r f => digitIn 3 4 r && digitIn 4 5 f, "Loyal customer"),
    (fun r f => r == 5 && f == 1, "New customers"),
    (fun r f => digitIn 4 5 r && digitIn 2 3 f, "Potential Loyalist"),
    (fun r f => r == 5 && digitIn 4 5 f, "Champion") ]

/-- The ten segment labels, in rule order. -/
def segLabels : List String := segRules.map (·.2)

/-- Resolve the two-digit key `str(R)+str(F)` against the ordered rule list,
first match wins; an unmatched key keeps its raw two-character value. -/
def segmentLabel (r f : ℕ) : String :=
  match segRules.find? fun rule => rule.1 r f with
  | some rule => rule.2
  | none => toString r ++ toString f

/-! ## RFM engine (`build_rfm`) -/

/-- A pre-scoring RFM record: the merged and `Monetary > 0`-filtered
(CustomerID, Recency, Monetary, Frequency) row. -/
structure BaseRec where
  customerID : String
  recency : Int
  monetary : ℚ
  frequency : ℕ
deriving DecidableEq, Repr

/-- One output row of `build_rfm`. -/
structure RfmRow where
  customerID : String
  recency : Int
  monetary : ℚ
  frequency : ℕ
  rScore : ℕ
  fScore : ℕ
  mScore : ℕ
  rfmScore : String
  segment : String
deriving DecidableEq, Repr

/-- Attach the three scores and the derived string columns to a base row. -/
def mkRfmRow (b : BaseRec) (r f m : ℕ) : RfmRow :=
  ⟨b.customerID, b.recency, b.monetary, b.frequency, r, f, m,
    toString r ++ toString f ++ toString m, segmentLabel r f⟩

/-- Zip the base table with the three score columns. -/
def attachScores : List BaseRec → List ℕ → List ℕ → List ℕ → List RfmRow
  | b :: bs, r :: rs, f :: fs, m :: ms => mkRfmRow b r f m :: attachScores bs rs fs ms
  | _, _, _, _ => []

/-- The merged RFM base table: recency/monetary per customer, inner-joined
with the non-cancelled invoice counts (so a customer with no non-cancelled
invoice is dropped by the join), then filtered to `Monetary > 0`. -/
def rfmBase (df : List Row) : List BaseRec :=
  (((customersOf df).filter fun c => (customersNC df).contains c).map fun c =>
      { customerID := c, recency := recencyOf df c, monetary := monetaryOf df c,
        frequency := freqOf df c }).filter fun b => decide (0 < b.monetary)

/-- `build_rfm`: quantile-score the base table (`R` with descending labels,
`F` on the stable ranks, `M` ascending) and attach `RFM_Score` and
`Segments`. -/
def buildRfm (df : List Row) : Except EngineError (List RfmRow) :=
  match qcut ((rfmBase df).map fun b => (b.recency : ℚ)) [5, 4, 3, 2, 1],
      qcut (rankFirst ((rfmBase df).map fun b => (b.frequency : ℚ))) [1, 2, 3, 4, 5],
      qcut ((rfmBase df).map (·.monetary)) [1, 2, 3, 4, 5] with
  | .ok rs, .ok fs, .ok ms => .ok (attachScores (rfmBase df) rs fs ms)
  | _, _, _ => .error .insufficientData

/-! ## Cohort retention engine (`cohort_logic`) -/

/-- `groupby('CustomerID')['YearMonth'].transform('min')`: the customer's
first-purchase month. -/
def cohortMonthOf (df : List Row) (c : String) : YM :=
  match (rowsOf df c).map (·.ym) with
  | [] => ⟨0, 0⟩
  | y :: ys => ys.foldl ymMin y

/-- `CohortIndex` of a row: `years_diff * 12 + (months_diff + 1)`. -/
def rowCohortIndex (df : List Row) (r : Row) : Int :=
  let cm := cohortMonthOf df r.customerID
  (r.ym.year - cm.year) * 12 + ((r.ym.month - cm.month) + 1)

/-- One row after `cohort_logic`'s two column assignments. -/
def assignRow (df : List Row) (r : Row) : Row :=
  { r with cohortMonth := some (cohortMonthOf df r.customerID),
           cohortIndex := some (rowCohortIndex df r) }

/-- The in-place mutation of `cohort_logic`: write the `CohortMonth` and
`CohortIndex` columns into the shared table. -/
def cohortAssign (df : List Row) : List Row :=
  df.map (assignRow df)

/-- One cell of the cohort pivot: distinct customers transacting in
`(CohortMonth, CohortIndex)`; 0 encodes an absent (NaN) cell. -/
def cellCount (df' : List Row) (cm : YM) (idx : Int) : ℕ :=
  ((df'.filter fun r =>
      r.cohortMonth == some cm && r.cohortIndex == some idx).map (·.customerID)).dedup.length

/-- The distinct cohort months of the pivot (its row labels). -/
def cohortMonthsOf (df' : List Row) : List YM :=
  (df'.filterMap (·.cohortMonth)).dedup

/-- The distinct cohort indices of the pivot (its column labels). -/
def cohortIndicesOf (df' : List Row) : List Int :=
  (df'.filterMap (·.cohortIndex)).dedup

/-- The first pivot column, `cohort_data.iloc[:, 0]`: the smallest cohort
index present anywhere in the table. -/
def firstColIdx (df' : List Row) : Int :=
  match cohortIndicesOf df' with
  | [] => 0
  | i :: is => is.foldl min i

/-- One cell of the retention matrix of `cohort_logic`: the pivot cell
divided by its cohort's value in the first column; `none` is an absent
(NaN) cell. -/
def retentionAt (df : List Row) (cm : YM) (idx : Int) : Option ℚ :=
  if cellCount (cohortAssign df) cm idx = 0 then none
  else some ((cellCount (cohortAssign df) cm idx : ℚ) /
    (cellCount (cohortAssign df) cm (firstColIdx (cohortAssign df)) : ℚ))

/-- `cohort_logic`: the retention matrix as a cell function, together with
the mutated table (`self.df`). -/
def cohortLogic (df : List Row) : (YM → Int → Option ℚ) × List Row :=
  (retentionAt df, cohortAssign df)

/-! ## CLV engine (`build_clv_table`) -/

/-- One output row of `build_clv_table`. -/
structure ClvRow where
  customerID : String
  aov : ℚ
  purchaseFrequency : ℕ
  lifespan : ℚ
  clv : ℚ
deriving DecidableEq, Repr

/-- Distinct invoice ids over all of a customer's rows. -/
def invoiceCountOf (df : List Row) (c : String) : ℕ :=
  ((rowsOf df c).map (·.invoiceNo)).dedup.length

/-- `df.groupby('CustomerID')['InvoiceDate'].min()`. -/
def minDateOf (rows : List Row) : Int :=
  match rows.map (·.invoiceDate) with
  | [] => 0
  | d :: ds => ds.foldl min d

/-- `build_clv_table`: AOV × purchase frequency × lifespan per customer,
keeping only `CLV > 0` (a customer whose invoices are all cancellations gets
frequency 0, hence CLV 0, and is dropped — intended, spec §4.3). -/
def buildClvTable (df : List Row) : List ClvRow :=
  ((customersOf df).map fun c =>
      let aov := monetaryOf df c / (invoiceCountOf df c : ℚ)
      let pf := freqOf df c
      let lifespan := ((maxDateOf (rowsOf df c) - minDateOf (rowsOf df c) + 1 : ℤ) : ℚ) / 30
      { customerID := c, aov := aov, purchaseFrequency := pf, lifespan := lifespan,
        clv := aov * (pf : ℚ) * lifespan }).filter fun v => decide (0 < v.clv)

/-! ## Pareto engine (`pareto_analysis`) -/

/-- One output row of `pareto_analysis`. -/
structure PRow where
  customerID : String
  totalRevenue : ℚ
  cumRevenue : ℚ
  cumRevenuePct : ℚ
  cumCustomerPct : ℚ
deriving DecidableEq, Repr

/-- Descending order on (customer, revenue) pairs by revenue
(`sort_values(ascending=False)`). -/
def revDesc (a b : String × ℚ) : Prop := b.2 ≤ a.2

instance : DecidableRel revDesc := fun a b => inferInstanceAs (Decidable (b.2 ≤ a.2))

instance : IsTotal (String × ℚ) revDesc := ⟨fun a b => le_total b.2 a.2⟩

instance : IsTrans (String × ℚ) revDesc := ⟨fun _ _ _ h1 h2 => le_trans h2 h1⟩

/-- The per-customer revenue sums, sorted descending
(`sort_values(ascending=False)`). -/
def paretoSorted (df : List Row) : List (String × ℚ) :=
  ((customersOf df).map fun c => (c, monetaryOf df c)).insertionSort revDesc

/-- `reset_index` then the positive-revenue filter: the retained rows keep
their original positional index labels. -/
def paretoFiltered (df : List Row) : List (ℕ × (String × ℚ)) :=
  (paretoSorted df).enum.filter fun p => decide (0 < p.2.2)

/-- `pareto_analysis`: cumulative revenue over the filtered rows, its share
of the filtered total, and `(index + 1) / len` as the customer share. -/
def paretoAnalysis (df : List Row) : List PRow :=
  (paretoFiltered df).enum.map fun q =>
    { customerID := q.2.2.1, totalRevenue := q.2.2.2,
      cumRevenue := (((paretoFiltered df).take (q.1 + 1)).map fun p => p.2.2).sum,
      cumRevenuePct := ((((paretoFiltered df).take (q.1 + 1)).map fun p => p.2.2).sum) /
        (((paretoFiltered df).map fun p => p.2.2).sum),
      cumCustomerPct := ((q.2.1 + 1 : ℕ) : ℚ) / ((paretoFiltered df).length : ℚ) }

/-! ## Country-level engine (`pareto_analysis_by_country`) -/

/-- One output row of `pareto_analysis_by_country`. -/
structure CountryRow where
  country : String
  totalCustomers : ℕ
  totalRevenue : ℚ
  customerPct : ℚ
  revenuePct : ℚ
deriving DecidableEq, Repr

/-- Descending order on (country, count) pairs by count. -/
def cntDesc (a b : String × ℕ) : Prop := b.2 ≤ a.2

instance : DecidableRel cntDesc := fun a b => inferInstanceAs (Decidable (b.2 ≤ a.2))

instance : IsTotal (String × ℕ) cntDesc := ⟨fun a b => le_total b.2 a.2⟩

instance : IsTrans (String × ℕ) cntDesc := ⟨fun _ _ _ h1 h2 => le_trans h2 h1⟩

/-- The distinct countries (the `Country` column's categories). -/
def countriesOf (df : List Row) : List String :=
  ((df.map (·.country)).dedup).insertionSort strLeR

/-- `pareto_analysis_by_country`: all-row customer counts per country sorted
descending, merged with non-cancelled revenue sums (`observed=False` keeps
every category on both sides), percentages on a 0–100 scale. -/
def paretoByCountry (df : List Row) : List CountryRow :=
  let counts := ((countriesOf df).map fun c =>
      (c, (df.filter fun r => r.country == c).length)).insertionSort cntDesc
  let totalC := df.length
  let totalR := (((ncRows df).map (·.totalRevenue)).sum : ℚ)
  counts.map fun p =>
    let rev := (((ncRows df).filter fun r => r.country == p.1).map (·.totalRevenue)).sum
    { country := p.1, totalCustomers := p.2, totalRevenue := rev,
      customerPct := ((p.2 : ℚ) / (totalC : ℚ)) * 100,
      revenuePct := (rev / totalR) * 100 }

/-! ## Segment aggregator (`group_by_segment`) -/

/-- One output row of `group_by_segment`. -/
structure SegRow where
  segment : String
  totalRevenue : ℚ
  totalCustomers : ℕ
  customerPct : ℚ
  revenuePct : ℚ
deriving DecidableEq, Repr

/-- Descending order on (segment, revenue, count) triples by revenue. -/
def segDesc (a b : String × ℚ × ℕ) : Prop := b.2.1 ≤ a.2.1

instance : DecidableRel segDesc := fun a b => inferInstanceAs (Decidable (b.2.1 ≤ a.2.1))

instance : IsTotal (String × ℚ × ℕ) segDesc := ⟨fun a b => le_total b.2.1 a.2.1⟩

instance : IsTrans (String × ℚ × ℕ) segDesc := ⟨fun _ _ _ h1 h2 => le_trans h2 h1⟩

/-- The aggregation body of `group_by_segment`, given the RFM table. -/
def segAggregate (rfm : List RfmRow) : List SegRow :=
  let segs := ((rfm.map (·.segment)).dedup).insertionSort strLeR
  let rows := (segs.map fun s =>
      (s, ((rfm.filter fun v => v.segment == s).map (·.monetary)).sum,
        (rfm.filter fun v => v.segment == s).length)).insertionSort segDesc
  let totalC := rfm.length
  let totalR := (rows.map (·.2.1)).sum
  rows.map fun t =>
    { segment := t.1, totalRevenue := t.2.1, totalCustomers := t.2.2,
      customerPct := (t.2.2 : ℚ) / (totalC : ℚ), revenuePct := t.2.1 / totalR }

/-! ## The stateful object (`CustomerIntelligence`) -/

/-- The fields of a `CustomerIntelligence` object that the engines read or
write: the shared transaction table `self.df` and the RFM output container
`self.rfm` (initialised to `None` in `__init__`). -/
structure CIState where
  df : List Row
  rfm : Option (List RfmRow)
deriving DecidableEq, Repr

/-- `CustomerIntelligence(cleaned_dataset)`. -/
def CIState.init (cleaned : List Row) : CIState := { df := cleaned, rfm := none }

/-- `build_rfm` as a method: stores the result in `self.rfm`; `self.df` is
never assigned. -/
def buildRfmM (s : CIState) : Except EngineError (List RfmRow × CIState) :=
  match buildRfm s.df with
  | .ok out => .ok (out, { s with rfm := some out })
  | .error e => .error e

/-- `cohort_logic` as a method: returns the retention matrix and mutates
`self.df` in place with the two derived columns. -/
def cohortLogicM (s : CIState) : (YM → Int → Option ℚ) × CIState :=
  ((cohortLogic s.df).1, { s with df := (cohortLogic s.df).2 })

/-- `build_clv_table` as a method: `self.df` is never assigned. -/
def buildClvTableM (s : CIState) : List ClvRow × CIState := (buildClvTable s.df, s)

/-- `pareto_analysis` as a method: `self.df` is never assigned. -/
def paretoAnalysisM (s : CIState) : List PRow × CIState := (paretoAnalysis s.df, s)

/-- `pareto_analysis_by_country` as a method: `self.df` is never assigned. -/
def paretoByCountryM (s : CIState) : List CountryRow × CIState := (paretoByCountry s.df, s)

/-- `group_by_segment` as a method: reads `self.rfm`, which is `None` until
`build_rfm` has run (the source then fails on `None.groupby`, the spec's
`NotReadyError`); `self.df` is never assigned. -/
def groupBySegmentM (s : CIState) : Except EngineError (List SegRow × CIState) :=
  match s.rfm with
  | none => .error .notReady
  | some rfm => .ok (segAggregate rfm, s)

instance {ε α : Type} [DecidableEq ε] [DecidableEq α] : DecidableEq (Except ε α)
  | .ok a, .ok b =>
    match decEq a b with
    | isTrue h => isTrue (by rw [h])
    | isFalse h => isFalse (by intro hh; cases hh; exact h rfl)
  | .ok _, .error _ => isFalse (by intro h; cases h)
  | .error _, .ok _ => isFalse (by intro h; cases h)
  | .error a, .error b =>
    match decEq a b with
    | isTrue h => isTrue (by rw [h])
    | isFalse h => isFalse (by intro hh; cases hh; exact h rfl)

/-- A row with the cohort columns blanked again (used to state that
`cohort_logic` changes nothing else of a row). -/
def stripCohort (r : Row) : Row := { r with cohortMonth := none, cohortIndex := none }

/-! ## Concrete sample tables (used by counterexamples and witnesses) -/

/-- A one-invoice cleaned row. -/
def sampleRow (c inv : String) (d : Int) (y : YM) (rev : ℚ) (canc : Bool) : Row :=
  { customerID := c, invoiceNo := inv, invoiceDate := d, ym := y, quantity := 1,
    unitPrice := rev, totalRevenue := rev, cancelledInvoice := canc, country := "Uk" }

def ymJan : YM := ⟨2011, 1⟩

def ymMar : YM := ⟨2011, 3⟩

/-- Two customers, one positive non-cancelled invoice each. -/
def tblTwo : List Row :=
  [sampleRow "A" "I1" 10 ymJan 100 false, sampleRow "B" "I2" 11 ymJan 50 false]

/-- `tblTwo` plus a customer `C` whose only invoice is a cancellation with
positive revenue. -/
def tblTwoCancelled : List Row :=
  tblTwo ++ [sampleRow "C" "C9" 9 ymJan 50 true]

/-- What `build_rfm` returns on `tblTwo` (and on `tblTwoCancelled`). -/
def rfmOutTwo : List RfmRow :=
  [⟨"A", 2, 100, 1, 1, 1, 5, "115", "Lost"⟩, ⟨"B", 1, 50, 1, 5, 5, 1, "551", "Champion"⟩]

/-- Five customers with distinct monetaries but a tie in recency
(`C` and `D` buy on the same day): recencies 4, 3, 2, 2, 1. -/
def tblTie : List Row :=
  [sampleRow "A" "I1" 10 ymJan 10 false, sampleRow "B" "I2" 11 ymJan 20 false,
   sampleRow "C" "I3" 12 ymJan 30 false, sampleRow "D" "I4" 12 ymJan 40 false,
   sampleRow "E" "I5" 13 ymJan 50 false]

/-- Five customers with pairwise distinct recencies and monetaries. -/
def tblDistinct : List Row :=
  [sampleRow "A" "I1" 9 ymJan 10 false, sampleRow "B" "I2" 10 ymJan 20 false,
   sampleRow "C" "I3" 11 ymJan 30 false, sampleRow "D" "I4" 12 ymJan 40 false,
   sampleRow "E" "I5" 13 ymJan 50 false]

/-- One customer with a first invoice in January 2011 and a repeat invoice
in March 2011 (the spec's cohort scenario). -/
def tblCohort : List Row :=
  [sampleRow "A" "I1" 10 ymJan 100 false, sampleRow "A" "I2" 70 ymMar 60 false]

/-- The first row of `tblCohort` after `cohort_logic`'s in-place column
assignment. -/
def cohRowJan : Row :=
  { sampleRow "A" "I1" 10 ymJan 100 false with
      cohortMonth := some ymJan, cohortIndex := some 1 }

/-! # Theorems -/

/-! ## Basic lemmas -/

theorem ratFloor_eq_floor (q : ℚ) : ratFloor q = ⌊q⌋ := Rat.floor_def.symm

theorem attachScores_mem {bs : List BaseRec} {rs fs ms : List ℕ} {rec : RfmRow}
    (h : rec ∈ attachScores bs rs fs ms) :
    ∃ b r f m, b ∈ bs ∧ r ∈ rs ∧ f ∈ fs ∧ m ∈ ms ∧ rec = mkRfmRow b r f m := by
  induction bs generalizing rs fs ms with
  | nil => simp [attachScores] at h
  | cons b bs ih =>
    match rs, fs, ms with
    | [], _, _ => simp [attachScores] at h
    | _ :: _, [], _ => simp [attachScores] at h
    | _ :: _, _ :: _, [] => simp [attachScores] at h
    | r :: rs, f :: fs, m :: ms =>
      rcases List.mem_cons.mp h with h | h
      · exact ⟨b, r, f, m, by simp, by simp, by simp, by simp, h⟩
      · obtain ⟨b', r', f', m', hb, hr, hf, hm, he⟩ := ih h
        exact ⟨b', r', f', m', by simp [hb], by simp [hr], by simp [hf], by simp [hm], he⟩

theorem attachScores_map_customerID {bs : List BaseRec} {rs fs ms : List ℕ}
    (hr : bs.length = rs.length) (hf : bs.length = fs.length)
    (hm : bs.length = ms.length) :
    (attachScores bs rs fs ms).map (·.customerID) = bs.map (·.customerID) := by
  induction bs generalizing rs fs ms with
  | nil => rfl
  | cons b bs ih =>
    cases rs with
    | nil => simp at hr
    | cons r rs =>
      cases fs with
      | nil => simp at hf
      | cons f fs =>
        cases ms with
        | nil => simp at hm
        | cons m ms =>
          simp only [attachScores, List.map_cons, mkRfmRow]
          exact congrArg _ (ih (by simpa using hr) (by simpa using hf) (by simpa using hm))

theorem attachScores_map_rScore {bs : List BaseRec} {rs fs ms : List ℕ}
    (hr : bs.length = rs.length) (hf : bs.length = fs.length)
    (hm : bs.length = ms.length) :
    (attachScores bs rs fs ms).map (·.rScore) = rs := by
  induction bs generalizing rs fs ms with
  | nil =>
    cases rs with
    | nil => rfl
    | cons r rs => simp at hr
  | cons b bs ih =>
    cases rs with
    | nil => simp at hr
    | cons r rs =>
      cases fs with
      | nil => simp at hf
      | cons f fs =>
        cases ms with
        | nil => simp at hm
        | cons m ms =>
          simp only [attachScores, List.map_cons, mkRfmRow]
          exact congrArg _ (ih (by simpa using hr) (by simpa using hf) (by simpa using hm))

theorem attachScores_map_fScore {bs : List BaseRec} {rs fs ms : List ℕ}
    (hr : bs.length = rs.length) (hf : bs.length = fs.length)
    (hm : bs.length = ms.length) :
    (attachScores bs rs fs ms).map (·.fScore) = fs := by
  induction bs generalizing rs fs ms with
  | nil =>
    cases fs with
    | nil => rfl
    | cons f fs => simp at hf
  | cons b bs ih =>
    cases rs with
    | nil => simp at hr
    | cons r rs =>
      cases fs with
      | nil => simp at hf
      | cons f fs =>
        cases ms with
        | nil => simp at hm
        | cons m ms =>
          simp only [attachScores, List.map_cons, mkRfmRow]
          exact congrArg _ (ih (by simpa using hr) (by simpa using hf) (by simpa using hm))

theorem attachScores_map_mScore {bs : List BaseRec} {rs fs ms : List ℕ}
    (hr : bs.length = rs.length) (hf : bs.length = fs.length)
    (hm : bs.length = ms.length) :
    (attachScores bs rs fs ms).map (·.mScore) = ms := by
  induction bs generalizing rs fs ms with
  | nil =>
    cases ms with
    | nil => rfl
    | cons m ms => simp at hm
  | cons b bs ih =>
    cases rs with
    | nil => simp at hr
    | cons r rs =>
      cases fs with
      | nil => simp at hf
      | cons f fs =>
        cases ms with
        | nil => simp at hm
        | cons m ms =>
          simp only [attachScores, List.map_cons, mkRfmRow]
          exact congrArg _ (ih (by simpa using hr) (by simpa using hf) (by simpa using hm))

theorem binIndex_lt_five (edges : List ℚ) (v : ℚ) : binIndex edges v < 5 := by
  have h : (List.range 4).countP (fun k => decide (edges.getD (k + 1) 0 < v)) ≤
      (List.range 4).length := List.countP_le_length _
  simp only [List.length_range] at h
  unfold binIndex
  omega

theorem qcut_ok_out {xs : List ℚ} {labels : List ℕ} {out : List ℕ}
    (h : qcut xs labels = .ok out) :
    out = xs.map fun v =>
      labels.getD (binIndex (quantileEdges (xs.insertionSort (· ≤ ·))) v) 0 := by
  unfold qcut at h
  split at h
  · exact (Except.ok.injEq _ _).mp h.symm
  · exact absurd h (by simp)

theorem qcut_ok_length {xs : List ℚ} {labels : List ℕ} {out : List ℕ}
    (h : qcut xs labels = .ok out) : out.length = xs.length := by
  rw [qcut_ok_out h, List.length_map]

theorem qcut_ok_mem {xs : List ℚ} {labels : List ℕ} {out : List ℕ}
    (h : qcut xs labels = .ok out) (hlab : labels.length = 5) :
    ∀ y ∈ out, y ∈ labels := by
  intro y hy
  rw [qcut_ok_out h] at hy
  obtain ⟨v, _, rfl⟩ := List.mem_map.mp hy
  rw [List.getD_eq_getElem _ _ (hlab ▸ binIndex_lt_five _ v)]
  exact List.getElem_mem _

theorem rankFirst_length (xs : List ℚ) : (rankFirst xs).length = xs.length := by
  simp [rankFirst]

theorem buildRfm_ok_shape {df : List Row} {out : List RfmRow} (h : buildRfm df = .ok out) :
    ∃ rs fs ms,
      qcut ((rfmBase df).map fun b => (b.recency : ℚ)) [5, 4, 3, 2, 1] = .ok rs ∧
      qcut (rankFirst ((rfmBase df).map fun b => (b.frequency : ℚ))) [1, 2, 3, 4, 5] = .ok fs ∧
      qcut ((rfmBase df).map (·.monetary)) [1, 2, 3, 4, 5] = .ok ms ∧
      out = attachScores (rfmBase df) rs fs ms := by
  unfold buildRfm at h
  cases h1 : qcut ((rfmBase df).map fun b => (b.recency : ℚ)) [5, 4, 3, 2, 1] with
  | error e => rw [h1] at h; exact absurd h (by simp)
  | ok rs =>
    cases h2 : qcut (rankFirst ((rfmBase df).map fun b => (b.frequency : ℚ)))
        [1, 2, 3, 4, 5] with
    | error e => rw [h1, h2] at h; exact absurd h (by simp)
    | ok fs =>
      cases h3 : qcut ((rfmBase df).map (·.monetary)) [1, 2, 3, 4, 5] with
      | error e => rw [h1, h2, h3] at h; exact absurd h (by simp)
      | ok ms =>
        rw [h1, h2, h3] at h
        exact ⟨rs, fs, ms, rfl, rfl, rfl, ((Except.ok.injEq _ _).mp h).symm⟩

/-! ## C5: segment aggregator before the RFM engine -/

/-- **C5.** Calling the segment aggregator (`group_by_segment`) before the
RFM engine (`build_rfm`) has produced output signals a `NotReadyError`:
`__init__` leaves `self.rfm = None`, and `group_by_segment` then fails on it
(the spec's `NotReadyError`). -/
theorem groupBySegment_before_rfm_notReady (cleaned : List Row) :
    groupBySegmentM (CIState.init cleaned) = .error .notReady := rfl

/-! ## C9: segment labels -/

/-- **C9.** Every `build_rfm` record's segment label is obtained from the
two score digits through the ordered first-match-wins rule list
(`segmentLabel`); in particular R=5,F=4 maps to "Champion", R=1,F=1 to
"Lost", R=4,F=1 to "Promising" and R=2,F=2 to "Lost". -/
theorem segment_label_rules :
    (∀ (df : List Row) (out : List RfmRow) (rec : RfmRow), buildRfm df = .ok out →
        rec ∈ out → rec.segment = segmentLabel rec.rScore rec.fScore) ∧
      segmentLabel 5 4 = "Champion" ∧ segmentLabel 1 1 = "Lost" ∧
      segmentLabel 4 1 = "Promising" ∧ segmentLabel 2 2 = "Lost" := by
  refine ⟨fun df out rec h hmem => ?_, by decide, by decide, by decide, by decide⟩
  obtain ⟨rs, fs, ms, _, _, _, rfl⟩ := buildRfm_ok_shape h
  obtain ⟨b, r, f, m, _, _, _, _, rfl⟩ := attachScores_mem hmem
  rfl

/-- Witness for C9 at a concrete table: the first record of
`buildRfm tblTwo`. -/
theorem segment_label_rules_witness :
    (⟨"A", 2, 100, 1, 1, 1, 5, "115", "Lost"⟩ : RfmRow).segment =
      segmentLabel (⟨"A", 2, 100, 1, 1, 1, 5, "115", "Lost"⟩ : RfmRow).rScore
        (⟨"A", 2, 100, 1, 1, 1, 5, "115", "Lost"⟩ : RfmRow).fScore :=
  segment_label_rules.1 tblTwo rfmOutTwo _
    (by with_unfolding_all decide) (by with_unfolding_all decide)

/-! ## C10: the rule table is exhaustive and unambiguous on real keys -/

/-- **C10.** For every pair of score digits in `{1,...,5}`, exactly one of
the ten segment-mapping rules matches, so the raw-key pass-through fallback
is unreachable for keys `build_rfm` produces, and every record of a
successful `build_rfm` run carries one of the ten named labels. -/
theorem segment_rules_exhaustive :
    (∀ p : Fin 5 × Fin 5,
        (segRules.countP fun rule => rule.1 (p.1.1 + 1) (p.2.1 + 1)) = 1 ∧
          segmentLabel (p.1.1 + 1) (p.2.1 + 1) ∈ segLabels) ∧
      ∀ (df : List Row) (out : List RfmRow) (rec : RfmRow), buildRfm df = .ok out →
        rec ∈ out → rec.segment ∈ segLabels := by
  refine ⟨by decide, fun df out rec h hmem => ?_⟩
  obtain ⟨rs, fs, ms, hr, hf, hm, rfl⟩ := buildRfm_ok_shape h
  obtain ⟨b, r, f, m, _, hrm, hfm, _, rfl⟩ := attachScores_mem hmem
  have hrv := qcut_ok_mem hr rfl r hrm
  have hfv := qcut_ok_mem hf rfl f hfm
  have : ∃ p : Fin 5 × Fin 5, r = p.1.1 + 1 ∧ f = p.2.1 + 1 := by
    fin_cases hrv <;> fin_cases hfv
    · exact ⟨(⟨4, by omega⟩, ⟨0, by omega⟩), rfl, rfl⟩
    · exact ⟨(⟨4, by omega⟩, ⟨1, by omega⟩), rfl, rfl⟩
    · exact ⟨(⟨4, by omega⟩, ⟨2, by omega⟩), rfl, rfl⟩
    · exact ⟨(⟨4, by omega⟩, ⟨3, by omega⟩), rfl, rfl⟩
    · exact ⟨(⟨4, by omega⟩, ⟨4, by omega⟩), rfl, rfl⟩
    · exact ⟨(⟨3, by omega⟩, ⟨0, by omega⟩), rfl, rfl⟩
    · exact ⟨(⟨3, by omega⟩, ⟨1, by omega⟩), rfl, rfl⟩
    · exact ⟨(⟨3, by omega⟩, ⟨2, by omega⟩), rfl, rfl⟩
    · exact ⟨(⟨3, by omega⟩, ⟨3, by omega⟩), rfl, rfl⟩
    · exact ⟨(⟨3, by omega⟩, ⟨4, by omega⟩), rfl, rfl⟩
    · exact ⟨(⟨2, by omega⟩, ⟨0, by omega⟩), rfl, rfl⟩
    · exact ⟨(⟨2, by omega⟩, ⟨1, by omega⟩), rfl, rfl⟩
    · exact ⟨(⟨2, by omega⟩, ⟨2, by omega⟩), rfl, rfl⟩
    · exact ⟨(⟨2, by omega⟩, ⟨3, by omega⟩), rfl, rfl⟩
    · exact ⟨(⟨2, by omega⟩, ⟨4, by omega⟩), rfl, rfl⟩
    · exact ⟨(⟨1, by omega⟩, ⟨0, by omega⟩), rfl, rfl⟩
    · exact ⟨(⟨1, by omega⟩, ⟨1, by omega⟩), rfl, rfl⟩
    · exact ⟨(⟨1, by omega⟩, ⟨2, by omega⟩), rfl, rfl⟩
    · exact ⟨(⟨1, by omega⟩, ⟨3, by omega⟩), rfl, rfl⟩
    · exact ⟨(⟨1, by omega⟩, ⟨4, by omega⟩), rfl, rfl⟩
    · exact ⟨(⟨0, by omega⟩, ⟨0, by omega⟩), rfl, rfl⟩
    · exact ⟨(⟨0, by omega⟩, ⟨1, by omega⟩), rfl, rfl⟩
    · exact ⟨(⟨0, by omega⟩, ⟨2, by omega⟩), rfl, rfl⟩
    · exact ⟨(⟨0, by omega⟩, ⟨3, by omega⟩), rfl, rfl⟩
    · exact ⟨(⟨0, by omega⟩, ⟨4, by omega⟩), rfl, rfl⟩
  obtain ⟨p, hp1, hp2⟩ := this
  have hall : ∀ p : Fin 5 × Fin 5, segmentLabel (p.1.1 + 1) (p.2.1 + 1) ∈ segLabels := by
    decide
  show segmentLabel r f ∈ segLabels
  rw [hp1, hp2]
  exact hall p

/-- Witness for C10 at a concrete table: the first record of
`buildRfm tblTwo` carries a named label. -/
theorem segment_rules_exhaustive_witness :
    (⟨"A", 2, 100, 1, 1, 1, 5, "115", "Lost"⟩ : RfmRow).segment ∈ segLabels :=
  segment_rules_exhaustive.2 tblTwo rfmOutTwo _
    (by with_unfolding_all decide) (by with_unfolding_all decide)

/-! ## C7: the cohort index formula and the January/March scenario -/

set_option maxRecDepth 20000 in
/-- **C7.** `cohort_logic` assigns every row
`CohortIndex = 1 + 12*(year(row month) - year(cohort month)) +
(month(row month) - month(cohort month))` where the cohort month is the
customer's minimum year-month bucket; and a customer with a first invoice in
January and a repeat one in March gets cohort indices {1, 3}, with no cell
at index 2 (absent, not zero). -/
theorem cohortIndex_formula :
    (∀ (df : List Row) (r : Row), r ∈ cohortAssign df →
        r.cohortIndex = some (1 + 12 * (r.ym.year - (cohortMonthOf df r.customerID).year) +
          (r.ym.month - (cohortMonthOf df r.customerID).month))) ∧
      (cohortAssign tblCohort).map (·.cohortIndex) = [some 1, some 3] ∧
      retentionAt tblCohort ymJan 2 = none := by
  refine ⟨fun df r hr => ?_, by with_unfolding_all decide, by with_unfolding_all decide⟩
  obtain ⟨r₀, _, rfl⟩ := List.mem_map.mp hr
  simp only [assignRow]
  unfold rowCohortIndex
  congr 1
  ring

set_option maxRecDepth 20000 in
/-- Witness for C7 at the concrete cohort table: the January row. -/
theorem cohortIndex_formula_witness :
    cohRowJan.cohortIndex = some (1 + 12 * (cohRowJan.ym.year -
        (cohortMonthOf tblCohort cohRowJan.customerID).year) +
      (cohRowJan.ym.month - (cohortMonthOf tblCohort cohRowJan.customerID).month)) :=
  cohortIndex_formula.1 tblCohort cohRowJan (by with_unfolding_all decide)

/-! ## C1: which engines mutate the shared table -/

set_option maxRecDepth 20000 in
/-- **C1 counterexample.** The claim "every engine leaves its input table
unchanged" is false: `cohort_logic` mutates `self.df` in place (it adds the
`CohortMonth` and `CohortIndex` columns). -/
theorem cohortLogic_mutates_df :
    (cohortLogicM (CIState.init tblCohort)).2.df ≠ tblCohort := by
  with_unfolding_all decide

/-- **C1 (amended).** Five of the six engines (`build_rfm`,
`build_clv_table`, `pareto_analysis`, `pareto_analysis_by_country`,
`group_by_segment`) leave the shared transaction table unchanged, but
`cohort_logic` replaces it in place by rows identical except for the
`CohortMonth` and `CohortIndex` columns, which it fills in. -/
theorem engines_df_effects (s : CIState) :
    (∀ out s', buildRfmM s = .ok (out, s') → s'.df = s.df) ∧
      (buildClvTableM s).2.df = s.df ∧
      (paretoAnalysisM s).2.df = s.df ∧
      (paretoByCountryM s).2.df = s.df ∧
      (∀ out s', groupBySegmentM s = .ok (out, s') → s'.df = s.df) ∧
      (cohortLogicM s).2.df = cohortAssign s.df ∧
      (cohortLogicM s).2.df.map stripCohort = s.df.map stripCohort ∧
      ∀ r ∈ (cohortLogicM s).2.df, r.cohortMonth.isSome ∧ r.cohortIndex.isSome := by
  refine ⟨fun out s' h => ?_, rfl, rfl, rfl, fun out s' h => ?_, rfl, ?_, ?_⟩
  · unfold buildRfmM at h
    cases hb : buildRfm s.df with
    | error e => rw [hb] at h; exact absurd h (by simp)
    | ok v =>
      rw [hb] at h
      have : s' = { s with rfm := some v } := (congrArg Prod.snd ((Except.ok.injEq _ _).mp h)).symm
      rw [this]
  · unfold groupBySegmentM at h
    cases hr : s.rfm with
    | none => rw [hr] at h; exact absurd h (by simp)
    | some v =>
      rw [hr] at h
      have : s' = s := (congrArg Prod.snd ((Except.ok.injEq _ _).mp h)).symm
      rw [this]
  · show (cohortAssign s.df).map stripCohort = s.df.map stripCohort
    unfold cohortAssign
    rw [List.map_map]
    exact List.map_congr_left fun r _ => rfl
  · intro r hr
    obtain ⟨r₀, _, rfl⟩ := List.mem_map.mp hr
    exact ⟨rfl, rfl⟩

set_option maxRecDepth 20000 in
/-- Witness for C1 (amended) at concrete states. -/
theorem engines_df_effects_witness :
    ({ df := tblTwo, rfm := some rfmOutTwo } : CIState).df = tblTwo ∧
      (buildClvTableM (CIState.init tblTwo)).2.df = tblTwo ∧
      (cohortLogicM (CIState.init tblCohort)).2.df = cohortAssign tblCohort :=
  ⟨(engines_df_effects (CIState.init tblTwo)).1 rfmOutTwo _ (by with_unfolding_all decide),
    (engines_df_effects (CIState.init tblTwo)).2.1,
    (engines_df_effects (CIState.init tblCohort)).2.2.2.2.2.1⟩

/-! ## C2: membership in the RFM table -/

theorem mem_customersOf {df : List Row} {c : String} :
    c ∈ customersOf df ↔ ∃ r ∈ df, r.customerID = c := by
  unfold customersOf
  rw [List.mem_insertionSort, List.mem_dedup, List.mem_map]

theorem mem_customersNC {df : List Row} {c : String} :
    c ∈ customersNC df ↔ ∃ r ∈ df, r.customerID = c ∧ r.cancelledInvoice = false := by
  unfold customersNC ncRows
  rw [List.mem_insertionSort, List.mem_dedup, List.mem_map]
  constructor
  · rintro ⟨r, hr, rfl⟩
    rw [List.mem_filter] at hr
    exact ⟨r, hr.1, rfl, by simpa using hr.2⟩
  · rintro ⟨r, hr, rfl, hc⟩
    exact ⟨r, List.mem_filter.mpr ⟨hr, by simpa using hc⟩, rfl⟩

theorem rfmBase_mem {df : List Row} {c : String} :
    (∃ b ∈ rfmBase df, b.customerID = c) ↔
      ((∃ r ∈ df, r.customerID = c ∧ r.cancelledInvoice = false) ∧
        0 < monetaryOf df c) := by
  unfold rfmBase
  constructor
  · rintro ⟨b, hb, rfl⟩
    rw [List.mem_filter] at hb
    obtain ⟨hb1, hb2⟩ := hb
    obtain ⟨c', hc', rfl⟩ := List.mem_map.mp hb1
    rw [List.mem_filter] at hc'
    obtain ⟨_, hcon⟩ := hc'
    have hnc : c' ∈ customersNC df := List.elem_iff.mp hcon
    exact ⟨mem_customersNC.mp hnc, by simpa using hb2⟩
  · rintro ⟨⟨r, hr, rfl, hcanc⟩, hmon⟩
    refine ⟨⟨r.customerID, recencyOf df r.customerID, monetaryOf df r.customerID,
      freqOf df r.customerID⟩, ?_, rfl⟩
    rw [List.mem_filter]
    refine ⟨List.mem_map.mpr ⟨r.customerID, ?_, rfl⟩, by simpa using hmon⟩
    rw [List.mem_filter]
    exact ⟨mem_customersOf.mpr ⟨r, hr, rfl⟩,
      List.elem_iff.mpr (mem_customersNC.mpr ⟨r, hr, rfl, hcanc⟩)⟩

set_option maxRecDepth 40000 in
/-- **C2 counterexample.** A customer whose only invoice is a cancellation
with positive revenue has `Monetary > 0` and yet does not appear in
`build_rfm`'s output (the inner join on the non-cancelled frequency table
drops it), so "appears iff Monetary > 0" is false. -/
theorem rfm_membership_counterexample :
    0 < monetaryOf tblTwoCancelled "C" ∧
      buildRfm tblTwoCancelled = .ok rfmOutTwo ∧
      (rfmOutTwo.all fun rec => rec.customerID != "C") = true := by
  refine ⟨by with_unfolding_all decide, by with_unfolding_all decide, by decide⟩

/-- **C2 (amended).** When `build_rfm` succeeds, a customer appears in its
output iff it has at least one non-cancelled invoice row *and* its Monetary
value (the sum of total revenue over all its rows, cancellations included)
is strictly positive. -/
theorem rfm_membership (df : List Row) (out : List RfmRow)
    (h : buildRfm df = .ok out) (c : String) :
    (∃ rec ∈ out, rec.customerID = c) ↔
      ((∃ r ∈ df, r.customerID = c ∧ r.cancelledInvoice = false) ∧
        0 < monetaryOf df c) := by
  obtain ⟨rs, fs, ms, hr, hf, hm, rfl⟩ := buildRfm_ok_shape h
  rw [← rfmBase_mem]
  have hmap : (attachScores (rfmBase df) rs fs ms).map (·.customerID) =
      (rfmBase df).map (·.customerID) :=
    attachScores_map_customerID
      (by rw [qcut_ok_length hr, List.length_map])
      (by rw [qcut_ok_length hf, rankFirst_length, List.length_map])
      (by rw [qcut_ok_length hm, List.length_map])
  constructor
  · rintro ⟨rec, hrec, rfl⟩
    have : rec.customerID ∈ (rfmBase df).map (·.customerID) := by
      rw [← hmap]; exact List.mem_map_of_mem _ hrec
    obtain ⟨b, hb, hbe⟩ := List.mem_map.mp this
    exact ⟨b, hb, hbe⟩
  · rintro ⟨b, hb, rfl⟩
    have : b.customerID ∈ (attachScores (rfmBase df) rs fs ms).map (·.customerID) := by
      rw [hmap]; exact List.mem_map_of_mem _ hb
    obtain ⟨rec, hrec, hre⟩ := List.mem_map.mp this
    exact ⟨rec, hrec, hre⟩

set_option maxRecDepth 40000 in
/-- Witness for C2 (amended) at a concrete table. -/
theorem rfm_membership_witness :
    (∃ rec ∈ rfmOutTwo, rec.customerID = "A") ↔
      ((∃ r ∈ tblTwo, r.customerID = "A" ∧ r.cancelledInvoice = false) ∧
        0 < monetaryOf tblTwo "A") :=
  rfm_membership tblTwo rfmOutTwo (by with_unfolding_all decide) "A"


/-! ## C6: retention at the first cohort index -/

theorem assignRow_fields (df : List Row) (r : Row) :
    (assignRow df r).customerID = r.customerID ∧ (assignRow df r).ym = r.ym ∧
      (assignRow df r).cohortMonth = some (cohortMonthOf df r.customerID) ∧
      (assignRow df r).cohortIndex = some (rowCohortIndex df r) :=
  ⟨rfl, rfl, rfl, rfl⟩

theorem ymMin_code_le_left (a b : YM) : (ymMin a b).code ≤ a.code := by
  unfold ymMin; split <;> omega

theorem ymMin_code_le_right (a b : YM) : (ymMin a b).code ≤ b.code := by
  unfold ymMin; split <;> omega

theorem ymMin_foldl_mem (ys : List YM) (y : YM) : ys.foldl ymMin y ∈ y :: ys := by
  induction ys generalizing y with
  | nil => simp
  | cons b t ih =>
    have h := ih (ymMin y b)
    rcases List.mem_cons.mp h with h | h
    · rw [List.foldl_cons, h]
      unfold ymMin
      split
      · simp
      · simp
    · simp [List.foldl_cons, List.mem_cons.mpr (Or.inr (List.mem_cons.mpr (Or.inr h)))]

theorem ymMin_foldl_le_init (ys : List YM) (y : YM) :
    (ys.foldl ymMin y).code ≤ y.code := by
  induction ys generalizing y with
  | nil => simp
  | cons b t ih =>
    rw [List.foldl_cons]
    exact le_trans (ih (ymMin y b)) (ymMin_code_le_left y b)

theorem ymMin_foldl_le (ys : List YM) (y : YM) (z : YM) (hz : z ∈ y :: ys) :
    (ys.foldl ymMin y).code ≤ z.code := by
  induction ys generalizing y with
  | nil =>
    simp at hz
    rw [hz]
    simp
  | cons b t ih =>
    rw [List.foldl_cons]
    rcases List.mem_cons.mp hz with rfl | hz
    · exact le_trans (ymMin_foldl_le_init t (ymMin z b)) (ymMin_code_le_left z b)
    · rcases List.mem_cons.mp hz with rfl | hz
      · exact le_trans (ymMin_foldl_le_init t (ymMin y z)) (ymMin_code_le_right y z)
      · exact ih (ymMin y b) (List.mem_cons.mpr (Or.inr hz))

theorem intMin_foldl_mem (ys : List Int) (y : Int) : ys.foldl min y ∈ y :: ys := by
  induction ys generalizing y with
  | nil => simp
  | cons b t ih =>
    have h := ih (min y b)
    rcases List.mem_cons.mp h with h | h
    · rw [List.foldl_cons, h]
      rcases min_choice y b with h' | h' <;> rw [h'] <;> simp
    · simp [List.foldl_cons, List.mem_cons.mpr (Or.inr (List.mem_cons.mpr (Or.inr h)))]

theorem intMin_foldl_le_init (ys : List Int) (y : Int) : ys.foldl min y ≤ y := by
  induction ys generalizing y with
  | nil => simp
  | cons b t ih =>
    rw [List.foldl_cons]
    exact le_trans (ih (min y b)) (min_le_left y b)

theorem intMin_foldl_le (ys : List Int) (y : Int) (z : Int) (hz : z ∈ y :: ys) :
    ys.foldl min y ≤ z := by
  induction ys generalizing y with
  | nil =>
    simp at hz
    subst hz
    simp
  | cons b t ih =>
    rw [List.foldl_cons]
    rcases List.mem_cons.mp hz with rfl | hz
    · exact le_trans (intMin_foldl_le_init t (min z b)) (min_le_left z b)
    · rcases List.mem_cons.mp hz with rfl | hz
      · exact le_trans (intMin_foldl_le_init t (min y z)) (min_le_right y z)
      · exact ih (min y b) (List.mem_cons.mpr (Or.inr hz))

theorem mem_rowsOf_self {df : List Row} {r : Row} (hr : r ∈ df) :
    r ∈ rowsOf df r.customerID :=
  List.mem_filter.mpr ⟨hr, by simp⟩

theorem cohortMonthOf_attained {df : List Row} {r : Row} (hr : r ∈ df) :
    ∃ rm ∈ df, rm.customerID = r.customerID ∧ rm.ym = cohortMonthOf df r.customerID := by
  have hmem : r.ym ∈ (rowsOf df r.customerID).map (·.ym) :=
    List.mem_map_of_mem _ (mem_rowsOf_self hr)
  unfold cohortMonthOf
  cases hys : (rowsOf df r.customerID).map (·.ym) with
  | nil => rw [hys] at hmem; simp at hmem
  | cons y ys =>
    have hfold : ys.foldl ymMin y ∈ (rowsOf df r.customerID).map (·.ym) := by
      rw [hys]; exact ymMin_foldl_mem ys y
    obtain ⟨rm, hrm, hrme⟩ := List.mem_map.mp hfold
    unfold rowsOf at hrm
    rw [List.mem_filter] at hrm
    exact ⟨rm, hrm.1, by simpa using hrm.2, hrme⟩

theorem cohortMonthOf_le {df : List Row} {r : Row} (hr : r ∈ df) :
    (cohortMonthOf df r.customerID).code ≤ r.ym.code := by
  have hmem : r.ym ∈ (rowsOf df r.customerID).map (·.ym) :=
    List.mem_map_of_mem _ (mem_rowsOf_self hr)
  unfold cohortMonthOf
  cases hys : (rowsOf df r.customerID).map (·.ym) with
  | nil => rw [hys] at hmem; simp at hmem
  | cons y ys =>
    rw [hys] at hmem
    exact ymMin_foldl_le ys y r.ym hmem

theorem rowCohortIndex_code (df : List Row) (r : Row) :
    rowCohortIndex df r = r.ym.code - (cohortMonthOf df r.customerID).code + 1 := by
  unfold rowCohortIndex YM.code
  ring

theorem rowCohortIndex_ge_one {df : List Row} {r : Row} (hr : r ∈ df) :
    1 ≤ rowCohortIndex df r := by
  have h := cohortMonthOf_le hr
  rw [rowCohortIndex_code]
  omega

theorem rowCohortIndex_of_min {df : List Row} {rm : Row} (hrm : rm ∈ df)
    (hmin : rm.ym = cohortMonthOf df rm.customerID) : rowCohortIndex df rm = 1 := by
  rw [rowCohortIndex_code, ← hmin]
  omega

theorem cohortIndicesOf_assign (df : List Row) :
    cohortIndicesOf (cohortAssign df) = (df.map fun r => rowCohortIndex df r).dedup := by
  unfold cohortIndicesOf cohortAssign
  rw [List.filterMap_map]
  congr 1
  exact congrFun (List.filterMap_eq_map fun r : Row => rowCohortIndex df r) df

theorem firstColIdx_assign {df : List Row} (hdf : df ≠ []) :
    firstColIdx (cohortAssign df) = 1 := by
  obtain ⟨r, hr⟩ := List.exists_mem_of_ne_nil df hdf
  obtain ⟨rm, hrm, hrmc, hrmym⟩ := cohortMonthOf_attained hr
  have h1 : (1 : Int) ∈ cohortIndicesOf (cohortAssign df) := by
    rw [cohortIndicesOf_assign, List.mem_dedup]
    exact List.mem_map.mpr ⟨rm, hrm, rowCohortIndex_of_min hrm (by rw [hrmym, hrmc])⟩
  have hall : ∀ z ∈ cohortIndicesOf (cohortAssign df), 1 ≤ z := by
    intro z hz
    rw [cohortIndicesOf_assign, List.mem_dedup] at hz
    obtain ⟨r', hr', rfl⟩ := List.mem_map.mp hz
    exact rowCohortIndex_ge_one hr'
  unfold firstColIdx
  cases hys : cohortIndicesOf (cohortAssign df) with
  | nil => rw [hys] at h1; simp at h1
  | cons i is =>
    rw [hys] at h1 hall
    show is.foldl min i = 1
    have hmem : is.foldl min i ∈ i :: is := intMin_foldl_mem is i
    have hle : is.foldl min i ≤ 1 := intMin_foldl_le is i 1 h1
    have hge : 1 ≤ is.foldl min i := hall _ hmem
    omega

theorem cellCount_first_pos {df : List Row} {cm : YM}
    (h : ∃ r ∈ cohortAssign df, r.cohortMonth = some cm) :
    1 ≤ cellCount (cohortAssign df) cm 1 := by
  obtain ⟨r', hr', hcm⟩ := h
  obtain ⟨r₀, hr₀, rfl⟩ := List.mem_map.mp hr'
  have hcm₀ : cohortMonthOf df r₀.customerID = cm := by
    have := (assignRow_fields df r₀).2.2.1
    rw [hcm] at this
    exact (Option.some.injEq _ _).mp this.symm
  obtain ⟨rm, hrm, hrmc, hrmym⟩ := cohortMonthOf_attained hr₀
  have hrm1 : rowCohortIndex df rm = 1 :=
    rowCohortIndex_of_min hrm (by rw [hrmym, hrmc])
  have hcmrm : cohortMonthOf df rm.customerID = cm := by rw [hrmc, hcm₀]
  have hmem : assignRow df rm ∈ cohortAssign df := List.mem_map_of_mem _ hrm
  unfold cellCount
  have hfil : assignRow df rm ∈ (cohortAssign df).filter fun r =>
      r.cohortMonth == some cm && r.cohortIndex == some 1 := by
    rw [List.mem_filter]
    refine ⟨hmem, ?_⟩
    simp [assignRow, hcmrm, hrm1]
  have hm1 : (assignRow df rm).customerID ∈ ((cohortAssign df).filter fun r =>
      r.cohortMonth == some cm && r.cohortIndex == some 1).map (·.customerID) :=
    List.mem_map_of_mem _ hfil
  have hm2 := List.mem_dedup.mpr hm1
  have hne := List.ne_nil_of_mem hm2
  have := List.length_pos.mpr hne
  omega

/-- **C6.** In the retention matrix of `cohort_logic`, the ratio at
`CohortIndex = 1` is exactly 1 for every cohort that has at least one
transaction: the first pivot column is the index-1 column, and every cohort
row divides its own index-1 count by itself. -/
theorem cohort_retention_one (df : List Row) (cm : YM)
    (h : ∃ r ∈ cohortAssign df, r.cohortMonth = some cm) :
    retentionAt df cm 1 = some 1 := by
  have hdf : df ≠ [] := by
    rcases h with ⟨r, hr, _⟩
    intro he
    rw [he] at hr
    simp [cohortAssign] at hr
  have h1 := firstColIdx_assign hdf
  have hc := cellCount_first_pos h
  unfold retentionAt
  rw [if_neg (by omega), h1]
  congr 1
  have hnz : ((cellCount (cohortAssign df) cm 1 : ℕ) : ℚ) ≠ 0 := by
    exact_mod_cast Nat.pos_iff_ne_zero.mp (by omega)
  exact div_self hnz

set_option maxRecDepth 40000 in
/-- Witness for C6 at the concrete cohort table. -/
theorem cohort_retention_one_witness : retentionAt tblCohort ymJan 1 = some 1 :=
  cohort_retention_one tblCohort ymJan
    ⟨cohRowJan, by with_unfolding_all decide, by with_unfolding_all decide⟩

/-! ## C8: Pareto cumulative columns -/

theorem enumFrom_filter_pos (l : List (String × ℚ)) (n : ℕ) (hl : l.Pairwise revDesc) :
    (List.enumFrom n l).filter (fun p => decide (0 < p.2.2)) =
      List.enumFrom n (l.filter fun a => decide (0 < a.2)) := by
  induction l generalizing n with
  | nil => rfl
  | cons a t ih =>
    rw [List.pairwise_cons] at hl
    obtain ⟨ha, ht⟩ := hl
    rw [List.enumFrom_cons]
    by_cases hp : 0 < a.2
    · rw [List.filter_cons_of_pos (by simpa using hp),
        List.filter_cons_of_pos (by simpa using hp), List.enumFrom_cons, ih (n + 1) ht]
    · have hneg : ∀ b ∈ t, ¬(0 < b.2) := fun b hb hpos => hp (lt_of_lt_of_le hpos (ha b hb))
      rw [List.filter_cons_of_neg (by simpa using hp),
        List.filter_cons_of_neg (by simpa using hp)]
      have hLHS : (List.enumFrom (n + 1) t).filter (fun p => decide (0 < p.2.2)) = [] := by
        rw [List.filter_eq_nil_iff]
        intro p hp'
        have hsnd : p.2 ∈ t := by
          have hm := List.enumFrom_map_snd (n + 1) t
          exact hm ▸ List.mem_map_of_mem Prod.snd hp'
        simpa using hneg _ hsnd
      have hRHS : t.filter (fun a => decide (0 < a.2)) = [] := by
        rw [List.filter_eq_nil_iff]
        intro b hb
        simpa using hneg b hb
      rw [hLHS, hRHS]
      rfl

/-- **C8.** In `pareto_analysis`'s output on an input with at least one
positive-revenue customer: the table is nonempty, `CumRevenuePct` is
non-decreasing along the descending-revenue order and equals exactly 1 at
the last row, and `CumCustomerPct` at each 0-based row `i` equals
`(i+1) / (row count)`, reaching exactly 1 at the last row. -/
theorem pareto_cumulative (df : List Row)
    (hpos : ∃ c ∈ customersOf df, 0 < monetaryOf df c) :
    paretoAnalysis df ≠ [] ∧
      (∀ i j (hi : i < (paretoAnalysis df).length) (hj : j < (paretoAnalysis df).length),
        i ≤ j → ((paretoAnalysis df).get ⟨i, hi⟩).cumRevenuePct ≤
          ((paretoAnalysis df).get ⟨j, hj⟩).cumRevenuePct) ∧
      (∀ hne : paretoAnalysis df ≠ [],
        ((paretoAnalysis df).getLast hne).cumRevenuePct = 1) ∧
      (∀ i (hi : i < (paretoAnalysis df).length),
        ((paretoAnalysis df).get ⟨i, hi⟩).cumCustomerPct =
          ((i + 1 : ℕ) : ℚ) / ((paretoAnalysis df).length : ℚ)) ∧
      (∀ hne : paretoAnalysis df ≠ [],
        ((paretoAnalysis df).getLast hne).cumCustomerPct = 1) := by
  have hsorted : (paretoSorted df).Pairwise revDesc :=
    List.sorted_insertionSort revDesc _
  have hfil : paretoFiltered df =
      List.enumFrom 0 ((paretoSorted df).filter fun a => decide (0 < a.2)) :=
    enumFrom_filter_pos _ 0 hsorted
  set F := (paretoSorted df).filter fun a => decide (0 < a.2) with hFdef
  have hFpos : ∀ a ∈ F, 0 < a.2 := fun a ha => by
    simpa using (List.mem_filter.mp ha).2
  have hFne : F ≠ [] := by
    obtain ⟨c, hc, hm⟩ := hpos
    have hmem : (c, monetaryOf df c) ∈ paretoSorted df := by
      unfold paretoSorted
      rw [List.mem_insertionSort]
      exact List.mem_map.mpr ⟨c, hc, rfl⟩
    exact List.ne_nil_of_mem (List.mem_filter.mpr ⟨hmem, by simpa using hm⟩)
  set G := F.map (·.2) with hGdef
  have hGpos : ∀ x ∈ G, 0 < x := by
    intro x hx
    obtain ⟨a, ha, rfl⟩ := List.mem_map.mp hx
    exact hFpos a ha
  have hGne : G ≠ [] := by
    rw [hGdef, Ne, List.map_eq_nil_iff]
    exact hFne
  have hT : 0 < G.sum := List.sum_pos G hGpos hGne
  have hGlen : G.length = F.length := List.length_map F _
  have hmapG : (paretoFiltered df).map (fun p => p.2.2) = G := by
    rw [hfil, show (fun p : ℕ × (String × ℚ) => p.2.2) =
      (fun a : String × ℚ => a.2) ∘ Prod.snd from rfl, ← List.map_map,
      List.enumFrom_map_snd]
  have htake : ∀ m, ((paretoFiltered df).take m).map (fun p => p.2.2) = G.take m := by
    intro m
    rw [List.map_take, hmapG]
  have hflen : (paretoFiltered df).length = F.length := by
    rw [hfil, List.enumFrom_length]
  have hlen : (paretoAnalysis df).length = F.length := by
    unfold paretoAnalysis
    rw [List.length_map, List.enum_length, hflen]
  have hne : paretoAnalysis df ≠ [] := by
    intro h
    have hl := congrArg List.length h
    rw [hlen] at hl
    simp at hl
    exact hFne hl
  have hmono : ∀ m m', m ≤ m' → (G.take m).sum ≤ (G.take m').sum := by
    intro m m' hmm
    have hsplit : G.take m' = G.take m ++ (G.drop m).take (m' - m) := by
      rw [← List.take_add]
      congr 1
      omega
    rw [hsplit, List.sum_append]
    have h0 : 0 ≤ ((G.drop m).take (m' - m)).sum :=
      List.sum_nonneg fun x hx =>
        le_of_lt (hGpos x (List.drop_subset m G (List.mem_of_mem_take hx)))
    linarith
  have hcomp : ∀ (i : ℕ) (hi : i < (paretoAnalysis df).length),
      ((paretoAnalysis df).get ⟨i, hi⟩).cumCustomerPct =
          ((i + 1 : ℕ) : ℚ) / (F.length : ℚ) ∧
        ((paretoAnalysis df).get ⟨i, hi⟩).cumRevenuePct =
          (G.take (i + 1)).sum / G.sum := by
    intro i hi
    have hPA : paretoAnalysis df = (List.enumFrom 0 (List.enumFrom 0 F)).map
        (fun q : ℕ × (ℕ × (String × ℚ)) =>
          ({ customerID := q.2.2.1, totalRevenue := q.2.2.2,
             cumRevenue := (((paretoFiltered df).take (q.1 + 1)).map fun p => p.2.2).sum,
             cumRevenuePct := ((((paretoFiltered df).take (q.1 + 1)).map
                 fun p => p.2.2).sum) / (((paretoFiltered df).map fun p => p.2.2).sum),
             cumCustomerPct :=
               ((q.2.1 + 1 : ℕ) : ℚ) / ((paretoFiltered df).length : ℚ) } : PRow)) := by
      unfold paretoAnalysis
      rw [show (paretoFiltered df).enum = List.enumFrom 0 (paretoFiltered df) from rfl,
        hfil]
    have hiF : i < F.length := by rw [← hlen]; exact hi
    have hi2 : i < ((List.enumFrom 0 (List.enumFrom 0 F)).map
        (fun q : ℕ × (ℕ × (String × ℚ)) =>
          ({ customerID := q.2.2.1, totalRevenue := q.2.2.2,
             cumRevenue := (((paretoFiltered df).take (q.1 + 1)).map fun p => p.2.2).sum,
             cumRevenuePct := ((((paretoFiltered df).take (q.1 + 1)).map
                 fun p => p.2.2).sum) / (((paretoFiltered df).map fun p => p.2.2).sum),
             cumCustomerPct :=
               ((q.2.1 + 1 : ℕ) : ℚ) / ((paretoFiltered df).length : ℚ) } : PRow))).length := by
      rw [List.length_map, List.enumFrom_length, List.enumFrom_length]
      exact hiF
    have hgeq := List.get_of_eq hPA ⟨i, hi⟩
    rw [hgeq]
    rw [List.get_eq_getElem]
    simp only [List.getElem_map, List.getElem_enumFrom, Nat.zero_add]
    constructor
    · show ((i + 1 : ℕ) : ℚ) / ((paretoFiltered df).length : ℚ) = _
      rw [hflen]
    · show (((paretoFiltered df).take (i + 1)).map fun p => p.2.2).sum /
          (((paretoFiltered df).map fun p => p.2.2).sum) = _
      rw [htake, hmapG]
  refine ⟨hne, ?_, ?_, ?_, ?_⟩
  · intro i j hi hj hij
    rw [(hcomp i hi).2, (hcomp j hj).2]
    exact (div_le_div_iff_of_pos_right hT).mpr (hmono _ _ (by omega))
  · intro hne2
    have hpos' : 0 < (paretoAnalysis df).length := List.length_pos.mpr hne2
    have hlast := List.getLast_eq_get (paretoAnalysis df) hne2
    rw [hlast, (hcomp _ _).2]
    have hk : (paretoAnalysis df).length - 1 + 1 = G.length := by
      rw [hlen, hGlen]
      omega
    rw [hk, List.take_length]
    exact div_self (ne_of_gt hT)
  · intro i hi
    rw [(hcomp i hi).1, hlen]
  · intro hne2
    have hpos' : 0 < (paretoAnalysis df).length := List.length_pos.mpr hne2
    have hlast := List.getLast_eq_get (paretoAnalysis df) hne2
    rw [hlast, (hcomp _ _).1]
    have hkpos : 0 < F.length := List.length_pos.mpr hFne
    have hk : (paretoAnalysis df).length - 1 + 1 = F.length := by
      rw [hlen]
      omega
    rw [hk]
    exact div_self (by exact_mod_cast Nat.pos_iff_ne_zero.mp hkpos)

set_option maxRecDepth 40000 in
/-- Witness for C8 at a concrete two-customer table. -/
theorem pareto_cumulative_witness :
    ((paretoAnalysis tblTwo).getLast (by with_unfolding_all decide)).cumRevenuePct = 1 ∧
      ((paretoAnalysis tblTwo).getLast (by with_unfolding_all decide)).cumCustomerPct = 1 :=
  ⟨(pareto_cumulative tblTwo
      ⟨"A", by with_unfolding_all decide, by with_unfolding_all decide⟩).2.2.1 _,
    (pareto_cumulative tblTwo
      ⟨"A", by with_unfolding_all decide, by with_unfolding_all decide⟩).2.2.2.2 _⟩

/-! ## C3/C4: quantile binning machinery -/

theorem sortQ_perm (xs : List ℚ) : (xs.insertionSort (· ≤ ·)).Perm xs :=
  List.perm_insertionSort _ xs

theorem sortQ_length (xs : List ℚ) : (xs.insertionSort (· ≤ ·)).length = xs.length :=
  List.length_insertionSort _ xs

theorem sortQ_strict {xs : List ℚ} (h : xs.Nodup) :
    (xs.insertionSort (· ≤ ·)).Pairwise (· < ·) := by
  have hs : (xs.insertionSort (· ≤ ·)).Sorted (· ≤ ·) :=
    List.sorted_insertionSort _ _
  have hn : (xs.insertionSort (· ≤ ·)).Nodup := ((sortQ_perm xs).nodup_iff).mpr h
  exact (List.Pairwise.and hs hn).imp fun h => lt_of_le_of_ne h.1 h.2

theorem pairwise_lt_getElem {s : List ℚ} (hs : s.Pairwise (· < ·)) {i j : ℕ}
    (hi : i < s.length) (hj : j < s.length) (hij : i < j) : s[i] < s[j] :=
  List.pairwise_iff_getElem.mp hs i j hi hj hij

theorem pairwise_le_getElem {s : List ℚ} (hs : s.Pairwise (· < ·)) {i j : ℕ}
    (hi : i < s.length) (hj : j < s.length) (hij : i ≤ j) : s[i] ≤ s[j] := by
  rcases Nat.lt_or_ge i j with h | h
  · exact le_of_lt (pairwise_lt_getElem hs hi hj h)
  · have : i = j := by omega
    subst this
    exact le_refl _

theorem ratFloor_toNat_cast {pos : ℚ} (h0 : 0 ≤ pos) :
    ((ratFloor pos).toNat : ℚ) = ((⌊pos⌋ : ℤ) : ℚ) := by
  rw [ratFloor_eq_floor]
  norm_cast
  exact Int.toNat_of_nonneg (Int.floor_nonneg.mpr h0)

theorem ratFloor_toNat_le {pos : ℚ} (h0 : 0 ≤ pos) :
    ((ratFloor pos).toNat : ℚ) ≤ pos := by
  rw [ratFloor_toNat_cast h0]
  exact Int.floor_le pos

theorem lt_ratFloor_toNat_add_one {pos : ℚ} (h0 : 0 ≤ pos) :
    pos < ((ratFloor pos).toNat : ℚ) + 1 := by
  rw [ratFloor_toNat_cast h0]
  exact Int.lt_floor_add_one pos

theorem ratFloor_toNat_le_of_le {pos : ℚ} {m : ℕ} (h0 : 0 ≤ pos)
    (h : pos ≤ (m : ℚ)) : (ratFloor pos).toNat ≤ m := by
  rw [ratFloor_eq_floor]
  have h1 : ⌊pos⌋ ≤ (m : ℤ) := by
    have := Int.floor_le_floor h
    rwa [Int.floor_natCast] at this
  omega

theorem ratFloor_toNat_mono {a b : ℚ} (h0 : 0 ≤ a) (hab : a ≤ b) :
    (ratFloor a).toNat ≤ (ratFloor b).toNat := by
  rw [ratFloor_eq_floor, ratFloor_eq_floor]
  have := Int.floor_le_floor hab
  have h1 : (0 : ℤ) ≤ ⌊a⌋ := Int.floor_nonneg.mpr h0
  omega

theorem interpAt_strictMono {s : List ℚ} (hs : s.Pairwise (· < ·)) {a b : ℚ}
    (h0 : 0 ≤ a) (hab : a < b) (hub : b ≤ (s.length : ℚ) - 1) :
    interpAt s a < interpAt s b := by
  have hn1 : 1 ≤ s.length := by
    by_contra h
    have hz : s.length = 0 := by omega
    rw [hz] at hub
    push_cast at hub
    linarith
  have hcast : ((s.length - 1 : ℕ) : ℚ) = (s.length : ℚ) - 1 := by
    push_cast [hn1]
    ring
  have h0b : 0 ≤ b := le_trans h0 (le_of_lt hab)
  have hale : (((ratFloor a).toNat : ℕ) : ℚ) ≤ a := ratFloor_toNat_le h0
  have halt : a < (((ratFloor a).toNat : ℕ) : ℚ) + 1 := lt_ratFloor_toNat_add_one h0
  have hble : (((ratFloor b).toNat : ℕ) : ℚ) ≤ b := ratFloor_toNat_le h0b
  have hblt : b < (((ratFloor b).toNat : ℕ) : ℚ) + 1 := lt_ratFloor_toNat_add_one h0b
  have hiab : (ratFloor a).toNat ≤ (ratFloor b).toNat :=
    ratFloor_toNat_mono h0 (le_of_lt hab)
  have hibn : (ratFloor b).toNat ≤ s.length - 1 := by
    apply ratFloor_toNat_le_of_le h0b
    rw [hcast]
    exact hub
  have hian : (ratFloor a).toNat ≤ s.length - 1 := le_trans hiab hibn
  rcases eq_or_lt_of_le hiab with heq | hlt
  · -- same segment
    have hia1 : (ratFloor a).toNat + 1 < s.length := by
      by_contra hcon
      have hend : (ratFloor a).toNat = s.length - 1 := by omega
      have : ((s.length - 1 : ℕ) : ℚ) ≤ a := by rw [← hend]; exact hale
      rw [hcast] at this
      linarith
    have hia : (ratFloor a).toNat < s.length := by omega
    have hgap : s[(ratFloor a).toNat] < s[(ratFloor a).toNat + 1] :=
      pairwise_lt_getElem hs hia hia1 (by omega)
    unfold interpAt
    rw [← heq]
    rw [List.getD_eq_getElem _ _ hia, List.getD_eq_getElem _ _ hia1]
    nlinarith [hgap, hab]
  · -- different segments
    have hia1n : (ratFloor a).toNat + 1 < s.length := by omega
    have hia : (ratFloor a).toNat < s.length := by omega
    have hibn' : (ratFloor b).toNat < s.length := by omega
    have hgapa : s[(ratFloor a).toNat] < s[(ratFloor a).toNat + 1] :=
      pairwise_lt_getElem hs hia hia1n (by omega)
    have hle1 : s[(ratFloor a).toNat + 1] ≤ s[(ratFloor b).toNat] :=
      pairwise_le_getElem hs hia1n hibn' (by omega)
    have hstep1 : interpAt s a < s[(ratFloor a).toNat + 1] := by
      unfold interpAt
      rw [List.getD_eq_getElem _ _ hia, List.getD_eq_getElem _ _ hia1n]
      nlinarith [hgapa, halt, hale]
    have hstep3 : s[(ratFloor b).toNat] ≤ interpAt s b := by
      unfold interpAt
      rcases Nat.lt_or_ge ((ratFloor b).toNat + 1) s.length with hib1 | hib1
      · rw [List.getD_eq_getElem _ _ hibn', List.getD_eq_getElem _ _ hib1]
        have hgapb : s[(ratFloor b).toNat] < s[(ratFloor b).toNat + 1] :=
          pairwise_lt_getElem hs hibn' hib1 (by omega)
        nlinarith [hgapb, hble]
      · rw [List.getD_eq_getElem _ _ hibn', List.getD_eq_default _ _ hib1]
        nlinarith
    exact lt_of_lt_of_le hstep1 (le_trans hle1 hstep3)

theorem quantileEdges_length (s : List ℚ) : (quantileEdges s).length = 6 := by
  unfold quantileEdges
  rw [List.length_map, List.length_range]

theorem quantileEdges_getElem (s : List ℚ) (k : ℕ)
    (hk : k < (quantileEdges s).length) :
    (quantileEdges s)[k] =
      interpAt s ((k : ℚ) * ((s.length : ℚ) - 1) / 5) := by
  unfold quantileEdges
  rw [List.getElem_map, List.getElem_range]

theorem quantileEdges_pairwise {s : List ℚ} (hs : s.Pairwise (· < ·))
    (h2 : 2 ≤ s.length) : (quantileEdges s).Pairwise (· < ·) := by
  rw [List.pairwise_iff_getElem]
  intro i j hi hj hij
  have hi6 : i < 6 := by rwa [quantileEdges_length] at hi
  have hj6 : j < 6 := by rwa [quantileEdges_length] at hj
  rw [quantileEdges_getElem s i hi, quantileEdges_getElem s j hj]
  have hn1 : (1 : ℚ) ≤ (s.length : ℚ) - 1 := by
    have : (2 : ℚ) ≤ (s.length : ℚ) := by exact_mod_cast h2
    linarith
  have hij' : (i : ℚ) < (j : ℚ) := by exact_mod_cast hij
  have hj5 : (j : ℚ) ≤ 5 := by
    have : j ≤ 5 := by omega
    exact_mod_cast this
  apply interpAt_strictMono hs
  · positivity
  · apply div_lt_div_of_pos_right ?_ (by norm_num)
    nlinarith
  · rw [div_le_iff₀ (by norm_num : (0:ℚ) < 5)]
    nlinarith

theorem qcut_ok_of_nodup {xs : List ℚ} (labels : List ℕ) (hnd : xs.Nodup)
    (h2 : 2 ≤ xs.length) :
    qcut xs labels = .ok (xs.map fun v =>
      labels.getD (binIndex (quantileEdges (xs.insertionSort (· ≤ ·))) v) 0) := by
  unfold qcut
  rw [if_pos]
  exact ((quantileEdges_pairwise (sortQ_strict hnd)
    (by rw [sortQ_length]; exact h2)).imp fun h => ne_of_lt h)

theorem countP_le_of_bracket {s : List ℚ} (hs : s.Pairwise (· < ·)) (e : ℚ) :
    ∀ (i₀ : ℕ) (hi : i₀ < s.length), s[i₀] ≤ e →
      (∀ h : i₀ + 1 < s.length, e < s[i₀ + 1]) →
      s.countP (fun v => decide (v ≤ e)) = i₀ + 1 := by
  induction s with
  | nil =>
    intro i₀ hi
    simp at hi
  | cons a t ih =>
    intro i₀ hi hlo hhi
    rw [List.pairwise_cons] at hs
    obtain ⟨ha, ht⟩ := hs
    cases i₀ with
    | zero =>
      rw [List.countP_cons]
      have hae : a ≤ e := hlo
      have htz : t.countP (fun v => decide (v ≤ e)) = 0 := by
        rw [List.countP_eq_zero]
        intro x hx
        cases ht' : t with
        | nil =>
          rw [ht'] at hx
          simp at hx
        | cons y ys =>
          have hey : e < y := by
            have hlen : 0 + 1 < (a :: t).length := by
              rw [ht']
              simp
            have := hhi hlen
            rw [List.getElem_cons_succ] at this
            simp only [ht', List.getElem_cons_zero] at this
            exact this
          have hyx : y ≤ x := by
            rcases List.mem_cons.mp (ht' ▸ hx) with rfl | hxy
            · exact le_refl _
            · have hpw := ht
              rw [ht', List.pairwise_cons] at hpw
              exact le_of_lt (hpw.1 x hxy)
          simp only [decide_eq_true_eq]
          linarith
      rw [htz]
      simp [hae]
    | succ i =>
      have hit : i < t.length := by
        simp at hi
        omega
      have hloi : t[i] ≤ e := by
        rw [List.getElem_cons_succ] at hlo
        exact hlo
      have hae : a ≤ e := by
        have hmem : t[i] ∈ t := List.getElem_mem _
        exact le_trans (le_of_lt (ha _ hmem)) hloi
      have hhit : ∀ h : i + 1 < t.length, e < t[i + 1] := by
        intro h
        have hlen : i + 1 + 1 < (a :: t).length := by
          simp
          omega
        have := hhi hlen
        rwa [List.getElem_cons_succ] at this
      rw [List.countP_cons, ih ht i hit hloi hhit]
      simp [hae]

theorem edge_pos_cast {n k : ℕ} (hn : 1 ≤ n) :
    (k : ℚ) * ((n : ℚ) - 1) / 5 = ((k * (n - 1) : ℕ) : ℚ) / ((5 : ℕ) : ℚ) := by
  push_cast [Nat.cast_sub hn]
  ring

theorem edge_floor {n k : ℕ} (hn : 1 ≤ n) :
    (ratFloor ((k : ℚ) * ((n : ℚ) - 1) / 5)).toNat = k * (n - 1) / 5 := by
  rw [edge_pos_cast hn, ratFloor_eq_floor, Rat.floor_natCast_div_natCast,
    ← Int.natCast_div]
  exact Int.toNat_natCast _

theorem edge_pos_nonneg {n k : ℕ} (hn : 1 ≤ n) :
    0 ≤ (k : ℚ) * ((n : ℚ) - 1) / 5 := by
  have h0 : (0 : ℚ) ≤ (n : ℚ) - 1 := by
    have : (1 : ℚ) ≤ (n : ℚ) := by exact_mod_cast hn
    linarith
  have h1 : (0 : ℚ) ≤ (k : ℚ) := Nat.cast_nonneg k
  have := mul_nonneg h1 h0
  linarith [div_nonneg this (by norm_num : (0:ℚ) ≤ 5)]

theorem interp_edge_bracket {s : List ℚ} (hs : s.Pairwise (· < ·)) (h2 : 2 ≤ s.length)
    {k : ℕ} (h1 : k * (s.length - 1) / 5 + 1 < s.length) :
    s[k * (s.length - 1) / 5] ≤
        interpAt s ((k : ℚ) * ((s.length : ℚ) - 1) / 5) ∧
      interpAt s ((k : ℚ) * ((s.length : ℚ) - 1) / 5) <
        s[k * (s.length - 1) / 5 + 1] := by
  have hn1 : 1 ≤ s.length := by omega
  have hpos0 := @edge_pos_nonneg s.length k hn1
  have hfl := @edge_floor s.length k hn1
  have hle := ratFloor_toNat_le hpos0
  have hlt := lt_ratFloor_toNat_add_one hpos0
  rw [hfl] at hle hlt
  unfold interpAt
  rw [hfl]
  rw [List.getD_eq_getElem _ _ (by omega : k * (s.length - 1) / 5 < s.length),
    List.getD_eq_getElem _ _ h1]
  have hgap : s[k * (s.length - 1) / 5] < s[k * (s.length - 1) / 5 + 1] :=
    pairwise_lt_getElem hs (by omega) h1 (by omega)
  constructor
  · nlinarith [mul_nonneg (by linarith : (0:ℚ) ≤ (k : ℚ) * ((s.length : ℚ) - 1) / 5 -
      ((k * (s.length - 1) / 5 : ℕ) : ℚ)) (by linarith : (0:ℚ) ≤
        s[k * (s.length - 1) / 5 + 1] - s[k * (s.length - 1) / 5])]
  · nlinarith [mul_pos (by linarith : (0:ℚ) < 1 - ((k : ℚ) * ((s.length : ℚ) - 1) / 5 -
      ((k * (s.length - 1) / 5 : ℕ) : ℚ))) (by linarith : (0:ℚ) <
        s[k * (s.length - 1) / 5 + 1] - s[k * (s.length - 1) / 5])]

theorem countP_edge {xs : List ℚ} (hnd : xs.Nodup) (h5 : 5 ≤ xs.length)
    {k : ℕ} (hk1 : 1 ≤ k) (hk4 : k ≤ 4) :
    xs.countP (fun v =>
        decide (v ≤ (quantileEdges (xs.insertionSort (· ≤ ·))).getD k 0)) =
      k * (xs.length - 1) / 5 + 1 := by
  have hslen : (xs.insertionSort (· ≤ ·)).length = xs.length := sortQ_length xs
  have hs := sortQ_strict hnd
  have h2 : 2 ≤ (xs.insertionSort (· ≤ ·)).length := by omega
  have hbound : k * ((xs.insertionSort (· ≤ ·)).length - 1) / 5 + 1 <
      (xs.insertionSort (· ≤ ·)).length := by
    rw [hslen]
    interval_cases k <;> omega
  have hbr := @interp_edge_bracket _ hs h2 k hbound
  have hedge : (quantileEdges (xs.insertionSort (· ≤ ·))).getD k 0 =
      interpAt (xs.insertionSort (· ≤ ·))
        ((k : ℚ) * (((xs.insertionSort (· ≤ ·)).length : ℚ) - 1) / 5) := by
    rw [List.getD_eq_getElem _ _ (by rw [quantileEdges_length]; omega),
      quantileEdges_getElem _ k (by rw [quantileEdges_length]; omega)]
  rw [← (sortQ_perm xs).countP_eq, hedge]
  rw [countP_le_of_bracket hs _ _ (by omega) hbr.1 (fun h => hbr.2)]
  rw [hslen]

theorem countP_add_not {α : Type} (p q : α → Bool) (l : List α)
    (himp : ∀ a ∈ l, p a = true → q a = true) :
    l.countP q = l.countP p + l.countP fun a => q a && !p a := by
  induction l with
  | nil => simp
  | cons a t ih =>
    have himp' : ∀ b ∈ t, p b = true → q b = true := fun b hb =>
      himp b (List.mem_cons_of_mem a hb)
    rw [List.countP_cons, List.countP_cons, List.countP_cons, ih himp']
    cases hp : p a
    · cases hq : q a
      · simp [hp, hq]
      · simp [hp, hq]
        omega
    · have hq : q a = true := himp a (List.mem_cons_self a t) hp
      simp [hp, hq]
      omega

theorem binIndex_cases (edges : List ℚ) (v : ℚ)
    (h12 : edges.getD 1 0 < edges.getD 2 0) (h23 : edges.getD 2 0 < edges.getD 3 0)
    (h34 : edges.getD 3 0 < edges.getD 4 0) :
    (binIndex edges v = 0 ↔ v ≤ edges.getD 1 0) ∧
      (binIndex edges v = 1 ↔ edges.getD 1 0 < v ∧ v ≤ edges.getD 2 0) ∧
      (binIndex edges v = 2 ↔ edges.getD 2 0 < v ∧ v ≤ edges.getD 3 0) ∧
      (binIndex edges v = 3 ↔ edges.getD 3 0 < v ∧ v ≤ edges.getD 4 0) ∧
      (binIndex edges v = 4 ↔ edges.getD 4 0 < v) := by
  unfold binIndex
  rw [show List.range 4 = [0, 1, 2, 3] from rfl]
  simp only [List.getD_eq_getElem?_getD] at h12 h23 h34 ⊢
  rcases le_or_lt v (edges[1]?.getD 0) with h1 | h1 <;>
    rcases le_or_lt v (edges[2]?.getD 0) with h2 | h2 <;>
      rcases le_or_lt v (edges[3]?.getD 0) with h3 | h3 <;>
        rcases le_or_lt v (edges[4]?.getD 0) with h4 | h4 <;>
          first
            | (exfalso; linarith)
            | ((simp only [List.countP_cons, List.countP_nil, decide_eq_true_eq,
                h1, h2, h3, h4, h1.not_lt, h2.not_lt, h3.not_lt, h4.not_lt];
                norm_num) <;> (try (repeat' apply And.intro)) <;>
                  (first | assumption | omega | linarith))

theorem qcut_bin_count {xs : List ℚ} {labels : List ℕ} (hnd : xs.Nodup)
    (h5 : 5 ≤ xs.length) (hlab : labels.length = 5) (hlnd : labels.Nodup)
    {j : ℕ} (hj : j < 5) :
    (xs.map fun v =>
        labels.getD (binIndex (quantileEdges (xs.insertionSort (· ≤ ·))) v) 0).count
      (labels.getD j 0) = xs.length / 5 ∨
    (xs.map fun v =>
        labels.getD (binIndex (quantileEdges (xs.insertionSort (· ≤ ·))) v) 0).count
      (labels.getD j 0) = (xs.length + 4) / 5 := by
  set E := quantileEdges (xs.insertionSort (· ≤ ·)) with hE
  have hs := sortQ_strict hnd
  have hslen := sortQ_length xs
  have hpw : E.Pairwise (· < ·) := quantileEdges_pairwise hs (by omega)
  have hlen6 : E.length = 6 := quantileEdges_length _
  have hgd : ∀ m, ∀ hm : m < 6, E.getD m 0 = E[m] := by
    intro m hm
    exact List.getD_eq_getElem _ _ (hlen6 ▸ hm)
  have h12 : E.getD 1 0 < E.getD 2 0 := by
    rw [hgd 1 (by norm_num), hgd 2 (by norm_num)]
    exact pairwise_lt_getElem hpw (by omega) (by omega) (by norm_num)
  have h23 : E.getD 2 0 < E.getD 3 0 := by
    rw [hgd 2 (by norm_num), hgd 3 (by norm_num)]
    exact pairwise_lt_getElem hpw (by omega) (by omega) (by norm_num)
  have h34 : E.getD 3 0 < E.getD 4 0 := by
    rw [hgd 3 (by norm_num), hgd 4 (by norm_num)]
    exact pairwise_lt_getElem hpw (by omega) (by omega) (by norm_num)
  have hcount : (xs.map fun v => labels.getD (binIndex E v) 0).count (labels.getD j 0) =
      xs.countP fun v => decide (binIndex E v = j) := by
    rw [List.count_eq_countP, List.countP_map]
    apply List.countP_congr
    intro v hv
    simp only [Function.comp_apply, beq_iff_eq, decide_eq_true_eq]
    rw [List.getD_eq_getElem _ _ (hlab ▸ binIndex_lt_five E v),
      List.getD_eq_getElem _ _ (hlab ▸ hj)]
    exact hlnd.getElem_inj_iff
  rw [hcount]
  have hC : ∀ k, 1 ≤ k → k ≤ 4 →
      xs.countP (fun v => decide (v ≤ E.getD k 0)) = k * (xs.length - 1) / 5 + 1 :=
    fun k hk1 hk4 => countP_edge hnd h5 hk1 hk4
  interval_cases j
  · have hcongr : xs.countP (fun v => decide (binIndex E v = 0)) =
        xs.countP fun v => decide (v ≤ E.getD 1 0) := by
      apply List.countP_congr
      intro v hv
      simp only [decide_eq_true_eq]
      exact (binIndex_cases E v h12 h23 h34).1
    rw [hcongr, hC 1 (by norm_num) (by norm_num)]
    omega
  · have himp : ∀ v ∈ xs, decide (v ≤ E.getD 1 0) = true →
        decide (v ≤ E.getD 2 0) = true := by
      intro v hv h
      simp only [decide_eq_true_eq] at h ⊢
      linarith
    have hadd := countP_add_not (fun v => decide (v ≤ E.getD 1 0))
      (fun v => decide (v ≤ E.getD 2 0)) xs himp
    have hcongr : xs.countP (fun v => decide (binIndex E v = 1)) =
        xs.countP fun v => decide (v ≤ E.getD 2 0) && !decide (v ≤ E.getD 1 0) := by
      apply List.countP_congr
      intro v hv
      simp only [decide_eq_true_eq, Bool.and_eq_true, Bool.not_eq_true',
        decide_eq_false_iff_not, not_le]
      rw [(binIndex_cases E v h12 h23 h34).2.1]
      exact and_comm
    rw [hcongr]
    simp only [] at hadd
    rw [hC 1 (by norm_num) (by norm_num), hC 2 (by norm_num) (by norm_num)] at hadd
    have hr : (xs.length - 1) % 5 = 0 ∨ (xs.length - 1) % 5 = 1 ∨
        (xs.length - 1) % 5 = 2 ∨ (xs.length - 1) % 5 = 3 ∨
        (xs.length - 1) % 5 = 4 := by omega
    rcases hr with h|h|h|h|h <;> omega
  · have himp : ∀ v ∈ xs, decide (v ≤ E.getD 2 0) = true →
        decide (v ≤ E.getD 3 0) = true := by
      intro v hv h
      simp only [decide_eq_true_eq] at h ⊢
      linarith
    have hadd := countP_add_not (fun v => decide (v ≤ E.getD 2 0))
      (fun v => decide (v ≤ E.getD 3 0)) xs himp
    have hcongr : xs.countP (fun v => decide (binIndex E v = 2)) =
        xs.countP fun v => decide (v ≤ E.getD 3 0) && !decide (v ≤ E.getD 2 0) := by
      apply List.countP_congr
      intro v hv
      simp only [decide_eq_true_eq, Bool.and_eq_true, Bool.not_eq_true',
        decide_eq_false_iff_not, not_le]
      rw [(binIndex_cases E v h12 h23 h34).2.2.1]
      exact and_comm
    rw [hcongr]
    simp only [] at hadd
    rw [hC 2 (by norm_num) (by norm_num), hC 3 (by norm_num) (by norm_num)] at hadd
    have hr : (xs.length - 1) % 5 = 0 ∨ (xs.length - 1) % 5 = 1 ∨
        (xs.length - 1) % 5 = 2 ∨ (xs.length - 1) % 5 = 3 ∨
        (xs.length - 1) % 5 = 4 := by omega
    rcases hr with h|h|h|h|h <;> omega
  · have himp : ∀ v ∈ xs, decide (v ≤ E.getD 3 0) = true →
        decide (v ≤ E.getD 4 0) = true := by
      intro v hv h
      simp only [decide_eq_true_eq] at h ⊢
      linarith
    have hadd := countP_add_not (fun v => decide (v ≤ E.getD 3 0))
      (fun v => decide (v ≤ E.getD 4 0)) xs himp
    have hcongr : xs.countP (fun v => decide (binIndex E v = 3)) =
        xs.countP fun v => decide (v ≤ E.getD 4 0) && !decide (v ≤ E.getD 3 0) := by
      apply List.countP_congr
      intro v hv
      simp only [decide_eq_true_eq, Bool.and_eq_true, Bool.not_eq_true',
        decide_eq_false_iff_not, not_le]
      rw [(binIndex_cases E v h12 h23 h34).2.2.2.1]
      exact and_comm
    rw [hcongr]
    simp only [] at hadd
    rw [hC 3 (by norm_num) (by norm_num), hC 4 (by norm_num) (by norm_num)] at hadd
    have hr : (xs.length - 1) % 5 = 0 ∨ (xs.length - 1) % 5 = 1 ∨
        (xs.length - 1) % 5 = 2 ∨ (xs.length - 1) % 5 = 3 ∨
        (xs.length - 1) % 5 = 4 := by omega
    rcases hr with h|h|h|h|h <;> omega
  · have hadd := countP_add_not (fun v => decide (v ≤ E.getD 4 0))
      (fun _ => true) xs (fun v hv h => rfl)
    have htrue : xs.countP (fun _ => true) = xs.length := congrFun List.countP_true xs
    have hcongr : xs.countP (fun v => decide (binIndex E v = 4)) =
        xs.countP fun v => true && !decide (v ≤ E.getD 4 0) := by
      apply List.countP_congr
      intro v hv
      simp only [decide_eq_true_eq, Bool.true_and, Bool.not_eq_true',
        decide_eq_false_iff_not, not_le]
      exact (binIndex_cases E v h12 h23 h34).2.2.2.2
    rw [hcongr]
    simp only [] at hadd
    rw [htrue, hC 4 (by norm_num) (by norm_num)] at hadd
    have hr : (xs.length - 1) % 5 = 0 ∨ (xs.length - 1) % 5 = 1 ∨
        (xs.length - 1) % 5 = 2 ∨ (xs.length - 1) % 5 = 3 ∨
        (xs.length - 1) % 5 = 4 := by omega
    rcases hr with h|h|h|h|h <;> omega

theorem rankFirst_nodup (xs : List ℚ) : (rankFirst xs).Nodup := by
  unfold rankFirst
  apply List.Nodup.map_on ?_ (List.nodup_range _)
  intro i hi i' hi' heq
  rw [List.mem_range] at hi hi'
  have heqN : ((List.range xs.length).countP fun j =>
      decide (xs.getD j 0 < xs.getD i 0 ∨ (xs.getD j 0 = xs.getD i 0 ∧ j < i))) + 1 =
      ((List.range xs.length).countP fun j =>
        decide (xs.getD j 0 < xs.getD i' 0 ∨ (xs.getD j 0 = xs.getD i' 0 ∧ j < i'))) + 1 := by
    exact_mod_cast heq
  have key : ∀ a b : ℕ, a < xs.length → b < xs.length →
      (xs.getD a 0 < xs.getD b 0 ∨ (xs.getD a 0 = xs.getD b 0 ∧ a < b)) →
      ((List.range xs.length).countP fun j =>
        decide (xs.getD j 0 < xs.getD a 0 ∨ (xs.getD j 0 = xs.getD a 0 ∧ j < a))) <
        ((List.range xs.length).countP fun j =>
          decide (xs.getD j 0 < xs.getD b 0 ∨ (xs.getD j 0 = xs.getD b 0 ∧ j < b))) := by
    intro a b ha hb hab
    have himp : ∀ j ∈ List.range xs.length,
        decide (xs.getD j 0 < xs.getD a 0 ∨ (xs.getD j 0 = xs.getD a 0 ∧ j < a)) = true →
        decide (xs.getD j 0 < xs.getD b 0 ∨ (xs.getD j 0 = xs.getD b 0 ∧ j < b)) = true := by
      intro j hj h
      simp only [decide_eq_true_eq] at h ⊢
      rcases h with h | h
      · rcases hab with h2 | h2
        · exact Or.inl (lt_trans h h2)
        · exact Or.inl (lt_of_lt_of_le h (le_of_eq h2.1))
      · rcases hab with h2 | h2
        · exact Or.inl (lt_of_le_of_lt (le_of_eq h.1) h2)
        · exact Or.inr ⟨h.1.trans h2.1, lt_trans h.2 h2.2⟩
    have hadd := countP_add_not
      (fun j => decide (xs.getD j 0 < xs.getD a 0 ∨ (xs.getD j 0 = xs.getD a 0 ∧ j < a)))
      (fun j => decide (xs.getD j 0 < xs.getD b 0 ∨ (xs.getD j 0 = xs.getD b 0 ∧ j < b)))
      (List.range xs.length) himp
    have hwit : 0 < (List.range xs.length).countP fun j =>
        decide (xs.getD j 0 < xs.getD b 0 ∨ (xs.getD j 0 = xs.getD b 0 ∧ j < b)) &&
          !decide (xs.getD j 0 < xs.getD a 0 ∨ (xs.getD j 0 = xs.getD a 0 ∧ j < a)) := by
      rw [List.countP_pos_iff]
      refine ⟨a, List.mem_range.mpr ha, ?_⟩
      simp only [Bool.and_eq_true, Bool.not_eq_true', decide_eq_true_eq,
        decide_eq_false_iff_not]
      refine ⟨hab, ?_⟩
      rintro (h | h)
      · exact absurd h (lt_irrefl _)
      · exact absurd h.2 (lt_irrefl _)
    simp only [] at hadd hwit
    omega
  rcases lt_trichotomy (xs.getD i 0) (xs.getD i' 0) with hv | hv | hv
  · have := key i i' hi hi' (Or.inl hv)
    omega
  · rcases Nat.lt_trichotomy i i' with hii | hii | hii
    · have := key i i' hi hi' (Or.inr ⟨hv, hii⟩)
      omega
    · exact hii
    · have := key i' i hi' hi (Or.inr ⟨hv.symm, hii⟩)
      omega
  · have := key i' i hi' hi (Or.inl hv)
    omega

theorem attachScores_length {bs : List BaseRec} {rs fs ms : List ℕ}
    (hr : bs.length = rs.length) (hf : bs.length = fs.length)
    (hm : bs.length = ms.length) :
    (attachScores bs rs fs ms).length = bs.length := by
  have h := congrArg List.length (attachScores_map_customerID hr hf hm)
  rwa [List.length_map, List.length_map] at h

/-- **C3 (amended).** For every cleaned input whose RFM base table has
`n ≥ 5` qualifying customers with pairwise distinct Recency values and
pairwise distinct Monetary values, `build_rfm` succeeds, every
`R_Score`/`F_Score`/`M_Score` lies in `{1,...,5}`, and for each of the three
score columns each of the five bins holds exactly `⌊n/5⌋` or
`⌈n/5⌉ = (n+4)/5` customers.  (Without the distinctness hypotheses the
equal-population property fails — see the counterexample.) -/
theorem buildRfm_equal_population (df : List Row)
    (h5 : 5 ≤ (rfmBase df).length)
    (hR : ((rfmBase df).map fun b => (b.recency : ℚ)).Nodup)
    (hM : ((rfmBase df).map (·.monetary)).Nodup) :
    ∃ out, buildRfm df = .ok out ∧ out.length = (rfmBase df).length ∧
      (∀ rec ∈ out, (1 ≤ rec.rScore ∧ rec.rScore ≤ 5) ∧
        (1 ≤ rec.fScore ∧ rec.fScore ≤ 5) ∧ (1 ≤ rec.mScore ∧ rec.mScore ≤ 5)) ∧
      ∀ ℓ, 1 ≤ ℓ → ℓ ≤ 5 →
        ((out.countP fun rec => rec.rScore == ℓ) = (rfmBase df).length / 5 ∨
          (out.countP fun rec => rec.rScore == ℓ) = ((rfmBase df).length + 4) / 5) ∧
        ((out.countP fun rec => rec.fScore == ℓ) = (rfmBase df).length / 5 ∨
          (out.countP fun rec => rec.fScore == ℓ) = ((rfmBase df).length + 4) / 5) ∧
        ((out.countP fun rec => rec.mScore == ℓ) = (rfmBase df).length / 5 ∨
          (out.countP fun rec => rec.mScore == ℓ) = ((rfmBase df).length + 4) / 5) := by
  set XR := (rfmBase df).map fun b => (b.recency : ℚ) with hXR
  set XF := rankFirst ((rfmBase df).map fun b => (b.frequency : ℚ)) with hXF
  set XM := (rfmBase df).map (·.monetary) with hXM
  have hlenR : XR.length = (rfmBase df).length := List.length_map _ _
  have hlenF : XF.length = (rfmBase df).length := by
    rw [hXF, rankFirst_length, List.length_map]
  have hlenM : XM.length = (rfmBase df).length := List.length_map _ _
  have hF : XF.Nodup := by rw [hXF]; exact rankFirst_nodup _
  set RS := XR.map (fun v =>
    [5, 4, 3, 2, 1].getD (binIndex (quantileEdges (XR.insertionSort (· ≤ ·))) v) 0)
    with hRS
  set FS := XF.map (fun v =>
    [1, 2, 3, 4, 5].getD (binIndex (quantileEdges (XF.insertionSort (· ≤ ·))) v) 0)
    with hFS
  set MS := XM.map (fun v =>
    [1, 2, 3, 4, 5].getD (binIndex (quantileEdges (XM.insertionSort (· ≤ ·))) v) 0)
    with hMS
  have hRok : qcut XR [5, 4, 3, 2, 1] = .ok RS :=
    qcut_ok_of_nodup [5, 4, 3, 2, 1] hR (by omega)
  have hFok : qcut XF [1, 2, 3, 4, 5] = .ok FS :=
    qcut_ok_of_nodup [1, 2, 3, 4, 5] hF (by omega)
  have hMok : qcut XM [1, 2, 3, 4, 5] = .ok MS :=
    qcut_ok_of_nodup [1, 2, 3, 4, 5] hM (by omega)
  have hRSlen : RS.length = (rfmBase df).length := by
    rw [hRS, List.length_map, hlenR]
  have hFSlen : FS.length = (rfmBase df).length := by
    rw [hFS, List.length_map, hlenF]
  have hMSlen : MS.length = (rfmBase df).length := by
    rw [hMS, List.length_map, hlenM]
  refine ⟨attachScores (rfmBase df) RS FS MS, ?_, ?_, ?_, ?_⟩
  · unfold buildRfm
    rw [← hXR, ← hXF, ← hXM, hRok, hFok, hMok]
  · exact attachScores_length hRSlen.symm hFSlen.symm hMSlen.symm
  · intro rec hrec
    obtain ⟨b, r, f, m, _, hrm, hfm, hmm, rfl⟩ := attachScores_mem hrec
    have h1 := qcut_ok_mem hRok rfl _ hrm
    have h2 := qcut_ok_mem hFok rfl _ hfm
    have h3 := qcut_ok_mem hMok rfl _ hmm
    refine ⟨?_, ?_, ?_⟩
    · fin_cases h1 <;> simp [mkRfmRow]
    · fin_cases h2 <;> simp [mkRfmRow]
    · fin_cases h3 <;> simp [mkRfmRow]
  · intro ℓ hℓ1 hℓ5
    have hmapR : (attachScores (rfmBase df) RS FS MS).map (·.rScore) = RS :=
      attachScores_map_rScore hRSlen.symm hFSlen.symm hMSlen.symm
    have hmapF : (attachScores (rfmBase df) RS FS MS).map (·.fScore) = FS :=
      attachScores_map_fScore hRSlen.symm hFSlen.symm hMSlen.symm
    have hmapM : (attachScores (rfmBase df) RS FS MS).map (·.mScore) = MS :=
      attachScores_map_mScore hRSlen.symm hFSlen.symm hMSlen.symm
    have hcR : ∀ x : ℕ,
        ((attachScores (rfmBase df) RS FS MS).countP fun rec => rec.rScore == x) =
          RS.count x := by
      intro x
      rw [List.count_eq_countP]
      conv_rhs => rw [← hmapR]
      rw [List.countP_map]
      rfl
    have hcF : ∀ x : ℕ,
        ((attachScores (rfmBase df) RS FS MS).countP fun rec => rec.fScore == x) =
          FS.count x := by
      intro x
      rw [List.count_eq_countP]
      conv_rhs => rw [← hmapF]
      rw [List.countP_map]
      rfl
    have hcM : ∀ x : ℕ,
        ((attachScores (rfmBase df) RS FS MS).countP fun rec => rec.mScore == x) =
          MS.count x := by
      intro x
      rw [List.count_eq_countP]
      conv_rhs => rw [← hmapM]
      rw [List.countP_map]
      rfl
    have h5R : 5 ≤ XR.length := by omega
    have h5F : 5 ≤ XF.length := by omega
    have h5M : 5 ≤ XM.length := by omega
    have hbcR : ∀ j : ℕ, ∀ hj : j < 5,
        RS.count ([5, 4, 3, 2, 1].getD j 0) = XR.length / 5 ∨
          RS.count ([5, 4, 3, 2, 1].getD j 0) = (XR.length + 4) / 5 := by
      intro j hj
      rw [hRS]
      exact qcut_bin_count hR h5R (show ([5, 4, 3, 2, 1] : List ℕ).length = 5 from rfl) (by decide) hj
    have hbcF : ∀ j : ℕ, ∀ hj : j < 5,
        FS.count ([1, 2, 3, 4, 5].getD j 0) = XF.length / 5 ∨
          FS.count ([1, 2, 3, 4, 5].getD j 0) = (XF.length + 4) / 5 := by
      intro j hj
      rw [hFS]
      exact qcut_bin_count hF h5F (show ([1, 2, 3, 4, 5] : List ℕ).length = 5 from rfl) (by decide) hj
    have hbcM : ∀ j : ℕ, ∀ hj : j < 5,
        MS.count ([1, 2, 3, 4, 5].getD j 0) = XM.length / 5 ∨
          MS.count ([1, 2, 3, 4, 5].getD j 0) = (XM.length + 4) / 5 := by
      intro j hj
      rw [hMS]
      exact qcut_bin_count hM h5M (show ([1, 2, 3, 4, 5] : List ℕ).length = 5 from rfl) (by decide) hj
    rw [hlenR] at hbcR
    rw [hlenF] at hbcF
    rw [hlenM] at hbcM
    refine ⟨?_, ?_, ?_⟩
    · rw [hcR]
      interval_cases ℓ
      · exact hbcR 4 (by norm_num)
      · exact hbcR 3 (by norm_num)
      · exact hbcR 2 (by norm_num)
      · exact hbcR 1 (by norm_num)
      · exact hbcR 0 (by norm_num)
    · rw [hcF]
      interval_cases ℓ
      · exact hbcF 0 (by norm_num)
      · exact hbcF 1 (by norm_num)
      · exact hbcF 2 (by norm_num)
      · exact hbcF 3 (by norm_num)
      · exact hbcF 4 (by norm_num)
    · rw [hcM]
      interval_cases ℓ
      · exact hbcM 0 (by norm_num)
      · exact hbcM 1 (by norm_num)
      · exact hbcM 2 (by norm_num)
      · exact hbcM 3 (by norm_num)
      · exact hbcM 4 (by norm_num)

/-- **C3 (counterexample).** On `tblTie` the base table has `n = 5`
qualifying customers, so the claimed equal-population property demands
exactly `⌈5/5⌉ = ⌊5/5⌋ = 1` customer in every `R_Score` bin; but the tied
Recency values make the bin of score 3 empty (`build_rfm` still succeeds
and assigns `R_Score`s `1, 2, 4, 4, 5`). -/
theorem equal_population_counterexample :
    (rfmBase tblTie).length = 5 ∧
    (buildRfm tblTie).map (fun out => out.countP fun rec => rec.rScore == 3) =
      .ok 0 ∧
    (buildRfm tblTie).map (fun out => out.map (·.rScore)) = .ok [1, 2, 4, 4, 5] := by
  refine ⟨by with_unfolding_all decide, ?_, ?_⟩
  · with_unfolding_all decide
  · with_unfolding_all decide

/-- Witness for `buildRfm_equal_population` at `tblDistinct` (five
customers with pairwise distinct Recency and Monetary values). -/
theorem buildRfm_equal_population_witness :
    (5 ≤ (rfmBase tblDistinct).length ∧
      ((rfmBase tblDistinct).map fun b => (b.recency : ℚ)).Nodup ∧
      ((rfmBase tblDistinct).map (·.monetary)).Nodup) ∧
    ∃ out, buildRfm tblDistinct = .ok out ∧
      out.length = (rfmBase tblDistinct).length ∧
      (∀ rec ∈ out, (1 ≤ rec.rScore ∧ rec.rScore ≤ 5) ∧
        (1 ≤ rec.fScore ∧ rec.fScore ≤ 5) ∧ (1 ≤ rec.mScore ∧ rec.mScore ≤ 5)) ∧
      ∀ ℓ, 1 ≤ ℓ → ℓ ≤ 5 →
        ((out.countP fun rec => rec.rScore == ℓ) = (rfmBase tblDistinct).length / 5 ∨
          (out.countP fun rec => rec.rScore == ℓ) =
            ((rfmBase tblDistinct).length + 4) / 5) ∧
        ((out.countP fun rec => rec.fScore == ℓ) = (rfmBase tblDistinct).length / 5 ∨
          (out.countP fun rec => rec.fScore == ℓ) =
            ((rfmBase tblDistinct).length + 4) / 5) ∧
        ((out.countP fun rec => rec.mScore == ℓ) = (rfmBase tblDistinct).length / 5 ∨
          (out.countP fun rec => rec.mScore == ℓ) =
            ((rfmBase tblDistinct).length + 4) / 5) :=
  ⟨⟨by with_unfolding_all decide, by with_unfolding_all decide,
      by with_unfolding_all decide⟩,
    buildRfm_equal_population tblDistinct (by with_unfolding_all decide)
      (by with_unfolding_all decide) (by with_unfolding_all decide)⟩

/-- **C4 (counterexample).** `tblTwo` has only two qualifying customers, so
Recency takes just 2 distinct values (fewer than 5); yet `build_rfm`
succeeds instead of signalling `InsufficientDataError`, because `pd.qcut`
only raises when the interpolated quantile *edges* collide, and on two
distinct values the six edges are pairwise distinct. -/
theorem insufficient_data_counterexample :
    ((rfmBase tblTwo).map fun b => (b.recency : ℚ)).dedup.length = 2 ∧
    buildRfm tblTwo = .ok rfmOutTwo := by
  constructor
  · with_unfolding_all decide
  · with_unfolding_all decide

/-- **C4 (amended).** `build_rfm` signals `InsufficientDataError` exactly
when one of the three quantile-edge lists (over Recency, the stable
Frequency ranks, or Monetary) has a repeated edge — the `duplicates='raise'`
condition of `pd.qcut` — not when a column has fewer than 5 distinct
values. -/
theorem buildRfm_insufficient_iff (df : List Row) :
    buildRfm df = .error .insufficientData ↔
      ¬ ((quantileEdges ((((rfmBase df).map fun b =>
            (b.recency : ℚ)).insertionSort (· ≤ ·)))).Nodup ∧
         (quantileEdges ((rankFirst ((rfmBase df).map fun b =>
            (b.frequency : ℚ))).insertionSort (· ≤ ·))).Nodup ∧
         (quantileEdges (((rfmBase df).map
            (·.monetary)).insertionSort (· ≤ ·))).Nodup) := by
  unfold buildRfm qcut
  by_cases h1 : (quantileEdges ((((rfmBase df).map fun b =>
      (b.recency : ℚ)).insertionSort (· ≤ ·)))).Nodup <;>
    by_cases h2 : (quantileEdges ((rankFirst ((rfmBase df).map fun b =>
        (b.frequency : ℚ))).insertionSort (· ≤ ·))).Nodup <;>
      by_cases h3 : (quantileEdges (((rfmBase df).map
          (·.monetary)).insertionSort (· ≤ ·))).Nodup <;>
        simp [h1, h2, h3]
